import Mathlib

/-!
# Verification of `organize_recognized.py`

A shallow embedding of the placement-and-deduplication engine of
`src/organize_recognized.py`, together with theorems settling the frozen
claims about its specification.

Modelling conventions:
* Python strings are modelled as `List Char` (`Chars`); `S` converts a Lean
  string literal.
* File contents are modelled as `List Nat` (byte lists).  The SHA-256 digest
  of `compute_file_hash` is modelled as the byte content itself (the standard
  collision-free idealization of a cryptographic hash; the spec treats
  collision probability as negligible).
* The filesystem is a flat association list from paths to contents.
  Directories are not modelled (`os.makedirs` creates them and never removes
  anything).
* `unicodedata.normalize("NFKC", ·)` is modelled as the identity function
  (NFKC is idempotent; the engine's own logic — replacement, collapsing,
  trimming — is modelled in full).
* `str.lower()` is modelled as ASCII lowering (the strings the engine
  compares case-insensitively are ASCII literals such as `"unknown"`).
* `os.path.abspath` is modelled as prefixing the current working directory
  to relative paths; normalization of `.`/`..` segments is elided (no
  sanitized component can be `.` or `..`, and the claims' scenarios use
  already-normalized roots).
-/

abbrev Chars := List Char

/-- Convert a Lean string literal to the `List Char` representation. -/
def S (s : String) : Chars := s.data

/-- Characters matched by Python's `\s` regex class (and `str.strip()`)
for `str` patterns: ASCII whitespace and control separators plus the
Unicode whitespace codepoints. -/
def isPyWs (c : Char) : Bool :=
  c.val = 9 ∨ c.val = 10 ∨ c.val = 11 ∨ c.val = 12 ∨ c.val = 13 ∨
  c.val = 28 ∨ c.val = 29 ∨ c.val = 30 ∨ c.val = 31 ∨ c.val = 32 ∨
  c.val = 0x85 ∨ c.val = 0xA0 ∨ c.val = 0x1680 ∨
  (0x2000 ≤ c.val ∧ c.val ≤ 0x200A) ∨
  c.val = 0x2028 ∨ c.val = 0x2029 ∨ c.val = 0x202F ∨
  c.val = 0x205F ∨ c.val = 0x3000

/-- ASCII lower-casing of one character (model of `str.lower()`). -/
def asciiLower (c : Char) : Char :=
  if 'A' ≤ c ∧ c ≤ 'Z' then Char.ofNat (c.toNat + 32) else c

/-- Strip characters satisfying `p` from both ends of a list
(Python `str.strip`). -/
def stripWhile (p : Char → Bool) (l : Chars) : Chars :=
  List.rdropWhile p (l.dropWhile p)

/-- Collapse each maximal run of whitespace to a single ASCII space
(Python `re.sub(r"\s+", " ", s)`). -/
def collapseWs : Chars → Chars
  | [] => []
  | [c] => if isPyWs c then [' '] else [c]
  | a :: b :: rest =>
    if isPyWs a then
      if isPyWs b then collapseWs (b :: rest)
      else ' ' :: collapseWs (b :: rest)
    else a :: collapseWs (b :: rest)

/-- Reserved / unsafe characters replaced by `sanitize_component`:
codepoints below 32 and the characters in the pattern string. -/
def isReservedChar (c : Char) : Bool :=
  c.val < 32 ∨ c = '<' ∨ c = '>' ∨ c = ':' ∨ c = '"' ∨ c = '|' ∨ c = '?' ∨ c = '*'

/-- `sanitize_component` from `organize_recognized.py`: normalize (NFKC
modelled as identity), replace path separators with `-`, replace
reserved/control characters with `-`, collapse whitespace and strip, strip
spaces and dots, fall back to `"Unknown"` when empty. -/
def sanitize_component (s : Chars) : Chars :=
  let s1 := s.map (fun c => if c = '/' ∨ c = '\\' then '-' else c)
  let s2 := s1.map (fun c => if isReservedChar c then '-' else c)
  let s3 := stripWhile isPyWs (collapseWs s2)
  let s4 := stripWhile (fun c => c = ' ' ∨ c = '.') s3
  if s4 = [] then S "Unknown" else s4

/-- `is_unknown_text` from `organize_recognized.py`: after stripping and
lower-casing, the text equals `"unknown"` or starts with `"unknown "`.
(`None` is handled by `isUnknownOpt` below.) -/
def is_unknown_text (text : Chars) : Bool :=
  let t := (stripWhile isPyWs text).map asciiLower
  t = S "unknown" ∨ (S "unknown ").isPrefixOf t

/-- `is_unknown_text` applied to an optional value: `None` counts as
unknown. -/
def isUnknownOpt : Option Chars → Bool
  | none => true
  | some t => is_unknown_text t

/-! ### Sanitizer properties (used by claims C9 and C10) -/

/-- The adjacency relation of whitespace-normal strings: no two adjacent
whitespace characters. -/
def noWsPair (a b : Char) : Prop := ¬(isPyWs a ∧ isPyWs b)

/-- Pushing a non-whitespace character through `collapseWs`. -/
theorem collapseWs_cons_not_ws (c : Char) (l : Chars) (h : ¬ isPyWs c) :
    collapseWs (c :: l) = c :: collapseWs l := by
  cases l <;> simp [collapseWs, h]

/-- Every character of `collapseWs l` is a space or a character of `l`. -/
theorem collapseWs_mem : ∀ {l : Chars} {c : Char}, c ∈ collapseWs l → c = ' ' ∨ c ∈ l
  | [], c, h => by simp [collapseWs] at h
  | [a], c, h => by
    by_cases ha : isPyWs a
    · simp only [collapseWs, ha, if_true, List.mem_singleton] at h
      exact Or.inl h
    · simp [collapseWs, ha] at h
      exact Or.inr (by simp [h])
  | a :: b :: rest, c, h => by
    by_cases ha : isPyWs a
    · by_cases hb : isPyWs b
      · simp only [collapseWs, ha, hb, if_true] at h
        rcases collapseWs_mem h with h' | h'
        · exact Or.inl h'
        · exact Or.inr (List.mem_cons_of_mem a h')
      · simp only [collapseWs, ha, hb, if_true, if_false] at h
        rcases List.mem_cons.mp h with h' | h'
        · exact Or.inl h'
        · rcases collapseWs_mem h' with h'' | h''
          · exact Or.inl h''
          · exact Or.inr (List.mem_cons_of_mem a h'')
    · simp only [collapseWs, ha, if_false] at h
      rcases List.mem_cons.mp h with h' | h'
      · exact Or.inr (by simp [h'])
      · rcases collapseWs_mem h' with h'' | h''
        · exact Or.inl h''
        · exact Or.inr (List.mem_cons_of_mem a h'')

/-- Every whitespace character of `collapseWs l` is an ASCII space. -/
theorem collapseWs_ws_eq_space :
    ∀ {l : Chars} {c : Char}, c ∈ collapseWs l → isPyWs c → c = ' '
  | [], c, h, _ => by simp [collapseWs] at h
  | [a], c, h, hw => by
    by_cases ha : isPyWs a
    · simp only [collapseWs, ha, if_true, List.mem_singleton] at h
      exact h
    · simp [collapseWs, ha] at h
      exact absurd (h ▸ hw) ha
  | a :: b :: rest, c, h, hw => by
    by_cases ha : isPyWs a
    · by_cases hb : isPyWs b
      · simp only [collapseWs, ha, hb, if_true] at h
        exact collapseWs_ws_eq_space h hw
      · simp only [collapseWs, ha, hb, if_true, if_false] at h
        rcases List.mem_cons.mp h with h' | h'
        · exact h'
        · exact collapseWs_ws_eq_space h' hw
    · simp only [collapseWs, ha, if_false] at h
      rcases List.mem_cons.mp h with h' | h'
      · exact absurd (h' ▸ hw) ha
      · exact collapseWs_ws_eq_space h' hw

/-- The head of `collapseWs (b :: rest)` for non-whitespace `b` is `b`;
helper for the chain property. -/
theorem collapseWs_head?_cons_not_ws (b : Char) (rest : Chars) (hb : ¬ isPyWs b) :
    (collapseWs (b :: rest)).head? = some b := by
  rw [collapseWs_cons_not_ws b rest hb]; rfl

/-- `collapseWs` never produces two adjacent whitespace characters. -/
theorem collapseWs_chain' : ∀ (l : Chars), (collapseWs l).Chain' noWsPair
  | [] => by simp [collapseWs]
  | [a] => by by_cases ha : isPyWs a <;> simp [collapseWs, ha]
  | a :: b :: rest => by
    by_cases ha : isPyWs a
    · by_cases hb : isPyWs b
      · simpa only [collapseWs, ha, hb, if_true] using collapseWs_chain' (b :: rest)
      · simp only [collapseWs, ha, hb, if_true, if_false]
        refine (collapseWs_chain' (b :: rest)).cons' ?_
        intro y hy
        rw [collapseWs_head?_cons_not_ws b rest hb] at hy
        simp only [Option.mem_def, Option.some.injEq] at hy
        exact fun hc => hb (hy ▸ hc.2)
    · simp only [collapseWs, ha, if_false]
      refine (collapseWs_chain' (b :: rest)).cons' ?_
      intro y _
      exact fun hc => ha hc.1

/-- `collapseWs` is the identity on whitespace-normal strings. -/
theorem collapseWs_eq_self :
    ∀ {l : Chars}, (∀ c ∈ l, isPyWs c → c = ' ') → l.Chain' noWsPair →
      collapseWs l = l
  | [], _, _ => rfl
  | [a], hmem, _ => by
    by_cases ha : isPyWs a
    · have haspace : a = ' ' := hmem a (by simp) ha
      subst haspace
      simp [collapseWs, ha]
    · simp [collapseWs, ha]
  | a :: b :: rest, hmem, hch => by
    have hch' : (b :: rest).Chain' noWsPair := (List.chain'_cons.mp hch).2
    have hpair : noWsPair a b := (List.chain'_cons.mp hch).1
    have hmem' : ∀ c ∈ b :: rest, isPyWs c → c = ' ' := by
      intro c hc hw; exact hmem c (List.mem_cons_of_mem a hc) hw
    have ih := collapseWs_eq_self hmem' hch'
    by_cases ha : isPyWs a
    · have hb : ¬ isPyWs b := fun hb => hpair ⟨ha, hb⟩
      have haspace : a = ' ' := hmem a (by simp) ha
      simp [collapseWs, ha, hb, ih, haspace]
    · simp [collapseWs, ha, ih]

/-- Stripping from both ends only keeps characters of the original list. -/
theorem stripWhile_subset (p : Char → Bool) (l : Chars) : stripWhile p l ⊆ l :=
  fun _ hc =>
    (List.dropWhile_subset p) ((List.rdropWhile_prefix p _).subset hc)

/-- The stripped list is a contiguous infix of the original. -/
theorem stripWhile_middle (p : Char → Bool) (l : Chars) : stripWhile p l <:+: l :=
  ((List.rdropWhile_prefix p (l.dropWhile p)).isInfix).trans
    ((List.dropWhile_suffix p).isInfix)

/-- Stripping is the identity when neither end satisfies the predicate. -/
theorem stripWhile_eq_self (p : Char → Bool) (l : Chars)
    (h1 : ∀ c ∈ l.head?, p c = false) (h2 : ∀ c ∈ l.getLast?, p c = false) :
    stripWhile p l = l := by
  cases l with
  | nil => rfl
  | cons a t =>
    have hpa : ¬ p a := by
      have := h1 a (by simp)
      simp [this]
    have hdrop : (a :: t).dropWhile p = a :: t := List.dropWhile_cons_of_neg hpa
    unfold stripWhile
    rw [hdrop]
    rw [List.rdropWhile_eq_self_iff]
    intro hne
    have := h2 ((a :: t).getLast hne) (by rw [List.getLast?_eq_getLast _ hne]; simp)
    simp [this]

/-- The head of a stripped list never satisfies the predicate. -/
theorem stripWhile_head_not (p : Char → Bool) (l : Chars) (c : Char)
    (h : (stripWhile p l).head? = some c) : p c = false := by
  unfold stripWhile at h
  obtain ⟨t, ht⟩ := List.rdropWhile_prefix p (l.dropWhile p)
  have hd : (l.dropWhile p).head? = some c := by
    rw [← ht, List.head?_append, h]; rfl
  have := List.head?_dropWhile_not p l
  rw [hd] at this
  exact this

/-- The last character of a stripped list never satisfies the predicate. -/
theorem stripWhile_getLast_not (p : Char → Bool) (l : Chars) (c : Char)
    (h : (stripWhile p l).getLast? = some c) : p c = false := by
  unfold stripWhile at h
  have hne : List.rdropWhile p (l.dropWhile p) ≠ [] := by
    intro hnil; rw [hnil] at h; simp at h
  have hlast := List.rdropWhile_last_not p (l.dropWhile p) hne
  have h2 := List.getLast?_eq_getLast (List.rdropWhile p (l.dropWhile p)) hne
  rw [h] at h2
  have hc : (List.rdropWhile p (l.dropWhile p)).getLast hne = c :=
    (Option.some.injEq _ _).mp h2.symm
  rw [hc] at hlast
  simpa using hlast

/-- Invariant satisfied by every output of `sanitize_component`: no path
separators, no reserved characters, whitespace only as single interior
ASCII spaces, ends free of spaces and dots, and nonempty. -/
def Sanitized (l : Chars) : Prop :=
  (∀ c ∈ l, c ≠ '/' ∧ c ≠ '\\' ∧ ¬ isReservedChar c ∧ (isPyWs c → c = ' ')) ∧
  l.Chain' noWsPair ∧
  (∀ c ∈ l.head?, ¬(c = ' ' ∨ c = '.')) ∧
  (∀ c ∈ l.getLast?, ¬(c = ' ' ∨ c = '.')) ∧
  l ≠ []

/-- `sanitize_component` fixes every string satisfying `Sanitized`. -/
theorem sanitize_of_sanitized {l : Chars} (h : Sanitized l) :
    sanitize_component l = l := by
  obtain ⟨hmem, hch, hhd, hlast, hne⟩ := h
  have hmap1 : l.map (fun c => if c = '/' ∨ c = '\\' then '-' else c) = l := by
    rw [List.map_congr_left (g := id), List.map_id]
    intro a ha
    simp [(hmem a ha).1, (hmem a ha).2.1]
  have hmap2 : l.map (fun c => if isReservedChar c then '-' else c) = l := by
    rw [List.map_congr_left (g := id), List.map_id]
    intro a ha
    simp [(hmem a ha).2.2.1]
  have hcoll : collapseWs l = l :=
    collapseWs_eq_self (fun c hc hw => (hmem c hc).2.2.2 hw) hch
  have hend_ws_hd : ∀ c ∈ l.head?, isPyWs c = false := by
    intro c hc
    by_contra hws
    simp only [Bool.not_eq_false] at hws
    have hcl : c ∈ l := List.mem_of_mem_head? hc
    have : c = ' ' := (hmem c hcl).2.2.2 hws
    exact hhd c hc (Or.inl this)
  have hend_ws_last : ∀ c ∈ l.getLast?, isPyWs c = false := by
    intro c hc
    by_contra hws
    simp only [Bool.not_eq_false] at hws
    have hcl : c ∈ l := List.mem_of_mem_getLast? hc
    have : c = ' ' := (hmem c hcl).2.2.2 hws
    exact hlast c hc (Or.inl this)
  have hstrip1 : stripWhile isPyWs l = l :=
    stripWhile_eq_self _ _ hend_ws_hd hend_ws_last
  have hstrip2 : stripWhile (fun c => c = ' ' ∨ c = '.') l = l := by
    refine stripWhile_eq_self _ _ ?_ ?_
    · intro c hc; simpa using hhd c hc
    · intro c hc; simpa using hlast c hc
  unfold sanitize_component
  simp only [hmap1, hmap2, hcoll, hstrip1, hstrip2]
  simp [hne]

/-- Characters surviving the two replacement maps of `sanitize_component`
are never separators or reserved characters. -/
theorem mem_replaced_props {s : Chars} {c : Char}
    (hc : c ∈ (s.map (fun c => if c = '/' ∨ c = '\\' then '-' else c)).map
      (fun c => if isReservedChar c then '-' else c)) :
    c ≠ '/' ∧ c ≠ '\\' ∧ ¬ isReservedChar c := by
  obtain ⟨y, hy, hcy⟩ := List.mem_map.mp hc
  obtain ⟨x, hx, hyx⟩ := List.mem_map.mp hy
  subst hcy
  subst hyx
  have hdash : isReservedChar '-' = false := by decide
  by_cases hx1 : x = '/' ∨ x = '\\'
  · simp only [hx1, if_true, hdash]
    decide
  · simp only [hx1, if_false]
    by_cases hr : isReservedChar x
    · simp only [hr, if_true]
      decide
    · simp only [hr, if_false]
      exact ⟨fun h => hx1 (Or.inl h), fun h => hx1 (Or.inr h), by simp [hr]⟩

/-- Executable check for the no-two-adjacent-whitespace property. -/
def chain2Ws : Chars → Bool
  | [] => true
  | [_] => true
  | a :: b :: rest => (!(isPyWs a && isPyWs b)) && chain2Ws (b :: rest)

/-- Soundness of the executable chain check. -/
theorem chain'_of_chain2Ws : ∀ {l : Chars}, chain2Ws l = true → l.Chain' noWsPair
  | [], _ => List.chain'_nil
  | [_], _ => List.chain'_singleton _
  | a :: b :: rest, h => by
    simp only [chain2Ws, Bool.and_eq_true, Bool.not_eq_true'] at h
    refine List.chain'_cons.mpr ⟨?_, chain'_of_chain2Ws h.2⟩
    intro hc
    simp [hc.1, hc.2] at h

/-- The literal fallback `"Unknown"` satisfies the sanitizer invariant. -/
theorem sanitized_unknown : Sanitized (S "Unknown") := by
  refine ⟨by decide, chain'_of_chain2Ws (by decide), ?_, ?_, by decide⟩
  · intro c hc
    have h' : 'U' = c := by simpa [S] using hc
    subst h'; decide
  · intro c hc
    have h' : 'n' = c := by simpa [S] using hc
    subst h'; decide

/-- Every output of `sanitize_component` satisfies the sanitizer
invariant. -/
theorem sanitize_component_sanitized (s : Chars) :
    Sanitized (sanitize_component s) := by
  rw [sanitize_component]
  set s2 := (s.map (fun c => if c = '/' ∨ c = '\\' then '-' else c)).map
      (fun c => if isReservedChar c then '-' else c) with hs2
  set s3 := stripWhile isPyWs (collapseWs s2) with hs3
  set s4 := stripWhile (fun c => c = ' ' ∨ c = '.') s3 with hs4
  by_cases h4 : s4 = []
  · simp only [h4, if_true]
    exact sanitized_unknown
  · simp only [h4, if_false]
    have hsub3 : s3 ⊆ collapseWs s2 := stripWhile_subset _ _
    have hsub4 : s4 ⊆ s3 := stripWhile_subset _ _
    refine ⟨?_, ?_, ?_, ?_, h4⟩
    · intro c hc
      have hc3 : c ∈ collapseWs s2 := hsub3 (hsub4 hc)
      have hws : isPyWs c → c = ' ' := collapseWs_ws_eq_space hc3
      rcases collapseWs_mem hc3 with hsp | hmem2
      · subst hsp
        exact ⟨by decide, by decide, by decide, fun _ => rfl⟩
      · obtain ⟨h1, h2, h3⟩ := mem_replaced_props hmem2
        exact ⟨h1, h2, h3, hws⟩
    · have h0 := collapseWs_chain' s2
      obtain ⟨s, t, ht⟩ :=
        (stripWhile_middle (fun c => c = ' ' ∨ c = '.') s3).trans
          (stripWhile_middle isPyWs (collapseWs s2))
      rw [← ht, List.append_assoc] at h0
      have h1 := (List.chain'_append.mp h0).2.1
      exact (List.chain'_append.mp h1).1
    · intro c hc
      have := stripWhile_head_not _ s3 c (Option.mem_def.mp hc)
      simpa using this
    · intro c hc
      have := stripWhile_getLast_not _ s3 c (Option.mem_def.mp hc)
      simpa using this

/-- **C10.** `sanitize_component` is idempotent: sanitizing an
already-sanitized component (as happens to the duplicate token and to
source basenames) never changes it. -/
theorem sanitize_component_idempotent (s : Chars) :
    sanitize_component (sanitize_component s) = sanitize_component s :=
  sanitize_of_sanitized (sanitize_component_sanitized s)

/-! ### String and path helpers (Python `str.replace`, `str.split`,
`posixpath` functions) -/

/-- One pass of Python `str.replace`: scan left to right, replacing each
non-overlapping occurrence of `pat` by `rep` without rescanning `rep`.
The fuel argument bounds the recursion (one unit per consumed character;
`pat` is nonempty whenever the loop is entered). -/
def replaceLoop (pat rep : Chars) : Nat → Chars → Chars
  | _, [] => []
  | 0, s => s
  | fuel+1, c :: rest =>
    if pat.isPrefixOf (c :: rest) then
      rep ++ replaceLoop pat rep fuel ((c :: rest).drop pat.length)
    else
      c :: replaceLoop pat rep fuel rest

/-- Python `s.replace(pat, rep)` (for the nonempty patterns used by the
renderer). -/
def replaceList (s pat rep : Chars) : Chars :=
  if pat = [] then s else replaceLoop pat rep s.length s

/-- Python `s.split(sep)` for a single-character separator. -/
def splitSep (sep : Char) : Chars → List Chars
  | [] => [[]]
  | c :: rest =>
    match splitSep sep rest with
    | [] => [[c]]
    | h :: t => if c = sep then [] :: h :: t else (c :: h) :: t

/-- `posixpath.dirname`: everything up to the last `/`, with trailing
slashes stripped unless the head is all slashes. -/
def pathDirname (p : Chars) : Chars :=
  let head := (p.reverse.dropWhile (fun c => c ≠ '/')).reverse
  if head = [] ∨ head.all (fun c => c = '/') then head
  else (head.reverse.dropWhile (fun c => c = '/')).reverse

/-- `posixpath.basename`: everything after the last `/`. -/
def pathBasename (p : Chars) : Chars :=
  (p.reverse.takeWhile (fun c => c ≠ '/')).reverse

/-- `posixpath.splitext`: split off the extension at the last dot of the
basename, unless the basename's leading characters up to that dot are all
dots. -/
def pathSplitExt (p : Chars) : Chars × Chars :=
  let head := (p.reverse.dropWhile (fun c => c ≠ '/')).reverse
  let base := (p.reverse.takeWhile (fun c => c ≠ '/')).reverse
  let extRev := base.reverse.takeWhile (fun c => c ≠ '.')
  if extRev.length = base.length then (p, [])
  else
    let stemBase := base.take (base.length - extRev.length - 1)
    if stemBase.all (fun c => c = '.') then (p, [])
    else (head ++ stemBase, '.' :: extRev.reverse)

/-- `posixpath.join` for two arguments. -/
def joinPath (a b : Chars) : Chars :=
  if b.head? = some '/' then b
  else if a = [] ∨ a.getLast? = some '/' then a ++ b
  else a ++ '/' :: b

/-- `os.path.join(*parts)` for a nonempty list of parts. -/
def joinParts : List Chars → Chars
  | [] => []
  | p :: rest => rest.foldl joinPath p

/-- Decimal digits of `n`, most significant first (helper with fuel). -/
def natToCharsAux : Nat → Nat → Chars
  | 0, _ => []
  | fuel+1, n =>
    if n < 10 then [Char.ofNat (48 + n)]
    else natToCharsAux fuel (n / 10) ++ [Char.ofNat (48 + n % 10)]

/-- Python `str(n)` for a natural number. -/
def natToChars (n : Nat) : Chars := natToCharsAux (n + 1) n

/-- Python `str(i)` for an integer (used for `release_year`). -/
def intToChars (i : Int) : Chars :=
  if i < 0 then '-' :: natToChars i.natAbs else natToChars i.toNat

/-- Read a decimal digit string back (left inverse of `natToChars`). -/
def charsToNat (l : Chars) : Nat :=
  l.foldl (fun acc c => acc * 10 + (c.toNat - 48)) 0

/-! ### Filesystem model -/

abbrev Content := List Nat

/-- A flat filesystem: an association list from paths to byte contents. -/
abbrev FS := List (Chars × Content)

/-- Look up the content stored at a path. -/
def FS.read : FS → Chars → Option Content
  | [], _ => none
  | (q, c) :: rest, p => if q = p then some c else FS.read rest p

/-- `os.path.exists`. -/
def FS.pathExists (fs : FS) (p : Chars) : Bool := (fs.read p).isSome

/-- Write content at a path (replacing any existing file there). -/
def FS.write : FS → Chars → Content → FS
  | [], p, c => [(p, c)]
  | (q, c0) :: rest, p, c =>
    if q = p then (q, c) :: rest else (q, c0) :: FS.write rest p c

/-- Remove a path (`os.remove`). -/
def FS.remove : FS → Chars → FS
  | [], _ => []
  | (q, c) :: rest, p =>
    if q = p then FS.remove rest p else (q, c) :: FS.remove rest p

/-- `compute_file_hash`: the SHA-256 digest is modelled as the byte
content itself (collision-free idealization); an unreadable file yields
`none` (the `except Exception: h = None` branch in `main`). -/
def compute_file_hash (fs : FS) (p : Chars) : Option Content := fs.read p

/-- `add_suffix_to_filename` from `organize_recognized.py`. -/
def add_suffix_to_filename (path : Chars) (n : Nat) : Chars :=
  if n ≤ 1 then path
  else
    let d := pathDirname path
    let base := pathBasename path
    let se := pathSplitExt base
    joinPath d (se.1 ++ '_' :: (natToChars n ++ se.2))

/-- The suffix-search loop of `compute_unique_destination` (fuel-bounded;
`compute_unique_destination` supplies enough fuel that the loop always
finds a non-existing path, see `uniqueDest_not_exists`). -/
def uniqueDestAux (fs : FS) (base : Chars) : Nat → Nat → Chars × Nat
  | 0, n => (add_suffix_to_filename base n, n)
  | fuel+1, n =>
    let cand := add_suffix_to_filename base n
    if fs.pathExists cand then uniqueDestAux fs base fuel (n + 1)
    else (cand, n)

/-- `compute_unique_destination` from `organize_recognized.py`. -/
def compute_unique_destination (fs : FS) (base : Chars) (start_n : Nat) :
    Chars × Nat :=
  uniqueDestAux fs base (fs.length + 1) (max 1 start_n)

/-- `os.path.abspath` is a path predicate on the first character. -/
def isAbs (p : Chars) : Bool := p.head? = some '/'

/-- `os.path.abspath` relative to a working directory (dot-segment
normalization elided, see the module docstring). -/
def abspath (cwd p : Chars) : Chars := if isAbs p then p else joinPath cwd p

/-- Length of the common prefix of two segment lists. -/
def commonPrefixLen : List Chars → List Chars → Nat
  | a :: as, b :: bs => if a = b then commonPrefixLen as bs + 1 else 0
  | _, _ => 0

/-- `posixpath.relpath` (on elided-normalization absolute paths). -/
def relpath (cwd p start : Chars) : Chars :=
  let pl := (splitSep '/' (abspath cwd p)).filter (fun x => x ≠ [])
  let sl := (splitSep '/' (abspath cwd start)).filter (fun x => x ≠ [])
  let i := commonPrefixLen pl sl
  let rel := List.replicate (sl.length - i) (S "..") ++ pl.drop i
  if rel = [] then S "." else joinParts rel

/-! ### Placeholder renderer (`build_dest_rel_base`) -/

/-- Characters of the trim class `[\s\-_.(),;:]` used by the renderer. -/
def isTrimPunct (c : Char) : Bool :=
  isPyWs c ∨ c = '-' ∨ c = '_' ∨ c = '.' ∨ c = '(' ∨ c = ')' ∨
  c = ',' ∨ c = ';' ∨ c = ':'

/-- `re.sub(r"^[\s\-_.(),;:]+|[\s\-_.(),;:]+$", "", comp)`. -/
def trimPunct (l : Chars) : Chars := stripWhile isTrimPunct l

/-- `re.sub(r"\s{2,}", " ", comp)`: collapse only runs of two or more
whitespace characters to a single space (fuel-bounded loop, one unit per
consumed character). -/
def collapse2Loop : Nat → Chars → Chars
  | 0, s => s
  | _, [] => []
  | _+1, [c] => [c]
  | fuel+1, a :: b :: rest =>
    if isPyWs a && isPyWs b then
      ' ' :: collapse2Loop fuel ((b :: rest).dropWhile isPyWs)
    else a :: collapse2Loop fuel (b :: rest)

/-- `re.sub(r"\s{2,}", " ", comp)`. -/
def collapse2 (s : Chars) : Chars := collapse2Loop s.length s

/-- Ordered association-list lookup (Python `dict.get`). -/
def lookupAssoc : List (Chars × Chars) → Chars → Option Chars
  | [], _ => none
  | (k, v) :: rest, key => if k = key then some v else lookupAssoc rest key

/-- `build_dest_rel_base` from `organize_recognized.py`.  `reps` is the
ordered placeholder substitution table built by `main` (Python dicts
preserve insertion order). -/
def build_dest_rel_base (reps : List (Chars × Chars)) (ext : Chars)
    (pattern : Chars) (keep_unknowns : Bool) : Chars :=
  let reps := if keep_unknowns then reps
    else reps.map (fun kv => (kv.1, if is_unknown_text kv.2 then [] else kv.2))
  let sub := reps.foldl (fun acc kv => replaceList acc kv.1 kv.2) pattern
  let parts := (splitSep '/' sub).filter
    (fun p => ¬(p = [] ∨ p = S "." ∨ p = S ".."))
  let safe_parts := parts.foldl (fun acc p =>
    let comp := sanitize_component p
    if ¬keep_unknowns ∧ is_unknown_text comp then acc
    else
      let comp := if keep_unknowns then comp
        else stripWhile isPyWs (collapse2 (trimPunct comp))
      if comp = [] then acc else acc ++ [comp]) []
  let safe_parts := if safe_parts = [] then
      let core := [S "%A", S "%L", S "%S"].foldl (fun acc key =>
        let v := sanitize_component ((lookupAssoc reps key).getD [])
        let v := if ¬keep_unknowns ∧ is_unknown_text v then [] else v
        let v := if keep_unknowns then v else stripWhile isPyWs (trimPunct v)
        if v = [] then acc else acc ++ [v]) []
      if core = [] then [S "Unknown"] else core
    else safe_parts
  joinParts safe_parts ++ ext

/-! ### The `main` pipeline: entry processing, grouping, planning,
execution, report -/

inductive OpAction
  | copy
  | move
deriving DecidableEq, Repr

/-- One metadata record of the recognized-songs mapping.  Optional fields
model absent JSON keys (`meta.get(...)` returning `None`). -/
structure Meta where
  author : Option Chars := none
  album : Option Chars := none
  song : Option Chars := none
  author_unknown : Option Bool := none
  album_unknown : Option Bool := none
  song_unknown : Option Bool := none
  artist_adamid : Option Chars := none
  release_year : Option Int := none
  label : Option Chars := none
  genre_primary : Option Chars := none
  isrc : Option Chars := none
  explicit : Option Bool := none
  applemusic_track_id : Option Chars := none
  applemusic_album_id : Option Chars := none
deriving DecidableEq

/-- The engine's configuration (the argparse surface plus the ambient
working directory and script directory used by `abspath`/`relpath`). -/
structure Config where
  pattern : Chars
  dest_root : Chars
  apply : Bool
  move : Bool
  keep_unknowns : Bool
  duplicate_token : Chars
  duplicates_json : Chars
  cwd : Chars
  scriptDir : Chars
deriving DecidableEq

/-- The unknown-field decision of `main`
(`author_unknown is True or is_unknown_text(author)` and its two
analogues): a field is treated as unknown when the flag is literally
`True` or the text heuristic fires. -/
def treatedUnknown (flag : Option Bool) (text : Option Chars) : Bool :=
  flag = some true || isUnknownOpt text

/-- Python `x or "Unknown"` for an optional string (both `None` and the
empty string are falsy). -/
def orUnknown : Option Chars → Chars
  | none => S "Unknown"
  | some t => if t = [] then S "Unknown" else t

/-- One grouped entry (the dict appended to `groups[key]` in `main`). -/
structure GItem where
  src : Chars
  size : Int
  author_s : Chars
  album_s : Chars
  song_s : Chars
  ext : Chars
  dest_rel_base : Chars
deriving DecidableEq

/-- The per-entry body of `main`'s first loop: resolve unknown fields,
sanitize, build the substitution table, render the destination, and stat
the source (`size = -1` when the source is missing). -/
def processEntry (cfg : Config) (fs : FS) (src : Chars) (meta : Meta) : GItem :=
  let author := if treatedUnknown meta.author_unknown meta.author
    then S "Unknown Artist" else meta.author.getD []
  let album := if treatedUnknown meta.album_unknown meta.album
    then S "Unknown Album" else meta.album.getD []
  let song := if treatedUnknown meta.song_unknown meta.song
    then S "Unknown Song" else meta.song.getD []
  let author_s := sanitize_component author
  let album_s := sanitize_component album
  let song_s := sanitize_component song
  let ext := ((pathSplitExt src).2).map asciiLower
  let artist_id_s := sanitize_component (orUnknown meta.artist_adamid)
  let year_s := sanitize_component
    (match meta.release_year with
     | some y => intToChars y
     | none => S "Unknown")
  let genre_s := sanitize_component (orUnknown meta.genre_primary)
  let label_s := sanitize_component (orUnknown meta.label)
  let isrc_s := sanitize_component (orUnknown meta.isrc)
  let explicit_str := if meta.explicit = some true then S "Explicit" else S "Clean"
  let explicit_raw := if meta.explicit = some true then S "true" else S "false"
  let am_track_s := sanitize_component (orUnknown meta.applemusic_track_id)
  let am_album_s := sanitize_component (orUnknown meta.applemusic_album_id)
  let reps := [(S "%A", author_s), (S "%L", album_s), (S "%S", song_s),
    (S "%Y", year_s), (S "%G", genre_s), (S "%B", label_s), (S "%I", isrc_s),
    (S "%E", explicit_str), (S "%e", explicit_raw), (S "%a", artist_id_s),
    (S "%T", am_track_s), (S "%U", am_album_s)]
  let dest_rel_base := build_dest_rel_base reps ext cfg.pattern cfg.keep_unknowns
  let size : Int := match fs.read src with
    | some c => (c.length : Int)
    | none => -1
  { src := src, size := size, author_s := author_s, album_s := album_s,
    song_s := song_s, ext := ext, dest_rel_base := dest_rel_base }

/-- A mapping entry: source path paired with its JSON value (`none`
models a non-dict value, skipped by `main`). -/
abbrev Mapping := List (Chars × Option Meta)

/-- Append an item to its group, preserving first-insertion key order
(Python `defaultdict(list)`). -/
def upsertGroup (gs : List (Chars × List GItem)) (k : Chars) (it : GItem) :
    List (Chars × List GItem) :=
  match gs with
  | [] => [(k, [it])]
  | (k0, its) :: rest =>
    if k0 = k then (k0, its ++ [it]) :: rest
    else (k0, its) :: upsertGroup rest k it

structure GroupingResult where
  groups : List (Chars × List GItem)
  missing : List Chars
  total : Nat
deriving DecidableEq

/-- One iteration of `main`'s first loop: skip non-dict entries and
`$`-prefixed keys, process the entry, group case-insensitively by rendered
destination, and record a missing source. -/
def groupStep (cfg : Config) (fs : FS) (st : GroupingResult)
    (entry : Chars × Option Meta) : GroupingResult :=
  match entry with
  | (_, none) => st
  | (src, some meta) =>
    if src.head? = some '$' then st
    else
      let it := processEntry cfg fs src meta
      let key := it.dest_rel_base.map asciiLower
      { groups := upsertGroup st.groups key it
        missing := if it.size < 0 then st.missing ++ [src] else st.missing
        total := st.total + 1 }

/-- `main`'s first loop over the whole mapping. -/
def groupEntries (cfg : Config) (fs : FS) (mapping : Mapping) : GroupingResult :=
  mapping.foldl (groupStep cfg fs) ⟨[], [], 0⟩

/-- One entry of the in-memory duplicates report
(`(src, None, "skipped-identical")` or `(src, assigned_rel)`). -/
inductive RepEntry
  | skipped (src : Chars)
  | planned (src : Chars) (rel : Chars)
deriving DecidableEq

/-- A planned operation (the dict appended to `ops` in `main`). -/
structure Op where
  action : OpAction
  src : Chars
  dest_abs : Chars
  dest_rel : Chars
  size : Int
deriving DecidableEq

/-- The mutable state threaded through `main`'s per-group planning loop.
`hashed` records each `compute_file_hash` invocation (one per processed
valid item), making re-hashing observable. -/
structure GState where
  seen : List Content
  uniqueCount : Nat
  ops : List Op
  rep : List RepEntry
  identicalSkipped : Nat
  alreadyInPlace : Nat
  plannedCopies : Nat
  plannedMoves : Nat
  hashed : List Chars
deriving DecidableEq

def initGState : GState := ⟨[], 0, [], [], 0, 0, 0, 0, []⟩

/-- The candidate destination for the `uc`-th distinct content of a group
(`main` lines 438–446): the first keeps the group's base rendered path;
later ones insert the sanitized duplicate token and the sanitized original
source basename before the extension. -/
def assignCandidate (cfg : Config) (uc : Nat) (it : GItem) : Chars :=
  let dest_abs_base := joinPath cfg.dest_root it.dest_rel_base
  if uc = 1 then dest_abs_base
  else
    let d := pathDirname dest_abs_base
    let se := pathSplitExt (pathBasename dest_abs_base)
    let src_stem := sanitize_component (pathSplitExt (pathBasename it.src)).1
    let safe_token := sanitize_component cfg.duplicate_token
    joinPath d (se.1 ++ safe_token ++ src_stem ++ se.2)

/-- The body of the planning loop for a kept (non-identical) item:
destination naming, filesystem uniqueness, report entry, already-in-place
check, and operation creation. -/
def planKeep (cfg : Config) (fs : FS) (validLen : Nat) (st : GState)
    (it : GItem) : GState :=
  let uc := st.uniqueCount + 1
  let candidate := assignCandidate cfg uc it
  let unique_abs := (compute_unique_destination fs candidate 1).1
  let unique_rel := relpath cfg.cwd unique_abs cfg.dest_root
  let rep := if 1 < validLen then st.rep ++ [.planned it.src unique_rel] else st.rep
  let src_abs := abspath cfg.cwd it.src
  let dest_abs := abspath cfg.cwd unique_abs
  if src_abs = dest_abs then
    { st with
      uniqueCount := uc
      rep := rep
      alreadyInPlace := st.alreadyInPlace + 1 }
  else
    { st with
      uniqueCount := uc
      rep := rep
      plannedCopies := st.plannedCopies + (if cfg.move then 0 else 1)
      plannedMoves := st.plannedMoves + (if cfg.move then 1 else 0)
      ops := st.ops ++ [{ action := if cfg.move then OpAction.move else OpAction.copy
                          src := it.src
                          dest_abs := unique_abs
                          dest_rel := unique_rel
                          size := it.size }] }

/-- One iteration of `main`'s planning loop over a group's valid items:
hash the source, skip bit-identical duplicates, otherwise keep. -/
def planGroupStep (cfg : Config) (fs : FS) (validLen : Nat) (st : GState)
    (it : GItem) : GState :=
  let st := { st with hashed := st.hashed ++ [it.src] }
  match compute_file_hash fs it.src with
  | some c =>
    if c ∈ st.seen then
      { st with
        identicalSkipped := st.identicalSkipped + 1
        rep := if 1 < validLen then st.rep ++ [.skipped it.src] else st.rep }
    else
      planKeep cfg fs validLen { st with seen := st.seen ++ [c] } it
  | none => planKeep cfg fs validLen st it

/-- Plan one placement group: filter to the valid (statable) items and
fold the planning step over them in input order.  Returns the final state
and the number of valid items. -/
def planGroup (cfg : Config) (fs : FS) (items : List GItem) : GState × Nat :=
  let valid := items.filter (fun i => 0 ≤ i.size)
  (valid.foldl (planGroupStep cfg fs valid.length) initGState, valid.length)

/-- Aggregated planning output over all groups. -/
structure PlanResult where
  ops : List Op
  dupReport : List (Chars × List RepEntry)
  duplicate_groups : Nat
  total_duplicates_kept : Nat
  identical_duplicates_skipped : Nat
  already_in_place : Nat
  planned_copies : Nat
  planned_moves : Nat
  hashed : List Chars
deriving DecidableEq

/-- One iteration of `main`'s planning loop: plan one group and
accumulate. -/
def planAllStep (cfg : Config) (fs : FS) (acc : PlanResult)
    (kg : Chars × List GItem) : PlanResult :=
    let g := planGroup cfg fs kg.2
    { ops := acc.ops ++ g.1.ops
      dupReport := if 1 < g.2 then acc.dupReport ++ [(kg.1, g.1.rep)]
        else acc.dupReport
      duplicate_groups := acc.duplicate_groups + (if 1 < g.2 then 1 else 0)
      total_duplicates_kept := acc.total_duplicates_kept +
        (if 1 < g.2 ∧ 1 < g.1.uniqueCount then g.1.uniqueCount - 1 else 0)
      identical_duplicates_skipped := acc.identical_duplicates_skipped +
        g.1.identicalSkipped
      already_in_place := acc.already_in_place + g.1.alreadyInPlace
      planned_copies := acc.planned_copies + g.1.plannedCopies
      planned_moves := acc.planned_moves + g.1.plannedMoves
      hashed := acc.hashed ++ g.1.hashed }

/-- `main`'s planning loop over all groups (groups iterate in
first-insertion order, as Python dicts do). -/
def planAll (cfg : Config) (fs : FS) (groups : List (Chars × List GItem)) :
    PlanResult :=
  groups.foldl (planAllStep cfg fs) ⟨[], [], 0, 0, 0, 0, 0, 0, []⟩

/-! ### Plan execution (`--apply`) -/

/-- Execute one operation.  A move is a rename (`shutil.move`; an existing
destination file is silently overwritten, as `os.rename` does on POSIX).
A copy writes a temporary sibling `dest + ".incoming"` — deleting any
pre-existing file there — and then renames it onto the destination
(`os.replace`, which silently overwrites an existing destination).
An unreadable source raises an uncaught exception, modelled as `none`. -/
def applyOp (fs : FS) (op : Op) : Option FS :=
  match FS.read fs op.src with
  | none => none
  | some c =>
    match op.action with
    | .move => some (FS.write (FS.remove fs op.src) op.dest_abs c)
    | .copy =>
      let temp := op.dest_abs ++ S ".incoming"
      let fs1 := if FS.pathExists fs temp then FS.remove fs temp else fs
      let fs2 := FS.write fs1 temp c
      some (FS.write (FS.remove fs2 temp) op.dest_abs c)

/-- Execute the planned operations in order.  The Boolean records whether
the run aborted (an uncaught exception stops the whole loop; there is no
per-operation error handling in `main`'s apply loop). -/
def applyOps : FS → List Op → FS × Bool
  | fs, [] => (fs, false)
  | fs, op :: rest =>
    match applyOp fs op with
    | none => (fs, true)
    | some fs' => applyOps fs' rest

/-! ### Structured report (`duplicates.json`) -/

/-- One serialized entry of the duplicates report. -/
structure RepEntryJson where
  src : Chars
  planned_dest_rel : Option Chars
  planned_dest_abs : Option Chars
  status : Chars
deriving DecidableEq

structure ReportGroup where
  dest_key : Chars
  entries : List RepEntryJson
deriving DecidableEq

/-- The structured report document (`report_json` in `main`).  Field for
field the JSON object written to `--duplicates-json`; `generated_at` holds
the wall-clock timestamp `datetime.now(timezone.utc).isoformat()`. -/
structure Report where
  schema : Chars
  generated_at : Chars
  pattern : Chars
  dest_root : Chars
  applyFlag : Bool
  mode : Chars
  duplicate_groups : Nat
  distinct_duplicates_kept : Nat
  identical_duplicates_skipped : Nat
  groups : List ReportGroup
deriving DecidableEq

/-- Serialize one in-memory report entry. -/
def repEntryJson (cfg : Config) : RepEntry → RepEntryJson
  | .skipped src => ⟨src, none, none, S "skipped-identical"⟩
  | .planned src rel =>
    ⟨src, some rel, some (joinPath cfg.dest_root rel), S "planned"⟩

/-- Python string comparison (lexicographic by code point). -/
def charsLe : Chars → Chars → Bool
  | [], _ => true
  | _ :: _, [] => false
  | a :: as, b :: bs => if a = b then charsLe as bs else decide (a.val < b.val)

/-- Association lookup in the duplicates report. -/
def lookupEntries : List (Chars × List RepEntry) → Chars → List RepEntry
  | [], _ => []
  | (k, es) :: rest, key => if k = key then es else lookupEntries rest key

/-- Insert into a `charsLe`-sorted list. -/
def insertSorted (x : Chars) : List Chars → List Chars
  | [] => [x]
  | y :: rest => if charsLe y x then y :: insertSorted x rest else x :: y :: rest

/-- Python `sorted` on strings (insertion sort; the report keys are
pairwise distinct, so this agrees with any stable sort by `charsLe`). -/
def sortChars : List Chars → List Chars
  | [] => []
  | x :: rest => insertSorted x (sortChars rest)

/-- The `$schema` reference computed by `main` (relative path from the
report's directory to the schema file next to the script). -/
def schemaRef (cfg : Config) : Chars :=
  relpath cfg.cwd
    (joinPath (joinPath cfg.scriptDir (S "schemas")) (S "duplicates.schema.json"))
    (pathDirname (abspath cfg.cwd cfg.duplicates_json))

/-- Build the structured report from the planning result (`main`'s
report-building block; groups are sorted by destination key). -/
def buildReport (cfg : Config) (now : Chars) (pr : PlanResult) : Report :=
  let keys := sortChars (pr.dupReport.map Prod.fst)
  let groups := keys.map (fun k =>
    ReportGroup.mk k ((lookupEntries pr.dupReport k).map (repEntryJson cfg)))
  { schema := schemaRef cfg
    generated_at := now
    pattern := cfg.pattern
    dest_root := abspath cfg.cwd cfg.dest_root
    applyFlag := cfg.apply
    mode := if cfg.move then S "MOVE" else S "COPY"
    duplicate_groups := pr.duplicate_groups
    distinct_duplicates_kept := pr.total_duplicates_kept
    identical_duplicates_skipped := pr.identical_duplicates_skipped
    groups := groups }

/-! ### The whole run -/

/-- Observable outcome of one invocation of `main` (after the mapping has
been parsed): counters, the plan, the post-run filesystem, the structured
report (`none` when an uncaught exception aborted the apply loop before
the report was written), and the console listing of missing sources
(truncated to the first 50). -/
structure RunResult where
  total_entries : Nat
  groupCount : Nat
  missing : List Chars
  plan : PlanResult
  fsAfter : FS
  aborted : Bool
  report : Option Report
  missingListing : List Chars
deriving DecidableEq

/-- One full run of the engine (`main` after argument parsing), on a fixed
mapping, filesystem and wall-clock timestamp. -/
def runMain (cfg : Config) (fs : FS) (mapping : Mapping) (now : Chars) :
    RunResult :=
  let gr := groupEntries cfg fs mapping
  let pr := planAll cfg fs gr.groups
  let ex := if cfg.apply then applyOps fs pr.ops else (fs, false)
  { total_entries := gr.total
    groupCount := gr.groups.length
    missing := gr.missing
    plan := pr
    fsAfter := ex.1
    aborted := ex.2
    report := if ex.2 then none else some (buildReport cfg now pr)
    missingListing := gr.missing.take 50 }

/-! ### Correctness of `compute_unique_destination` -/

/-- Reading back the decimal digits produced by the rendering helper. -/
theorem charsToNat_natToCharsAux :
    ∀ (fuel n : Nat), n < 10 ^ fuel → charsToNat (natToCharsAux fuel n) = n
  | 0, n, h => by
    interval_cases n
    rfl
  | fuel+1, n, h => by
    by_cases hn : n < 10
    · simp only [natToCharsAux, hn, if_true, charsToNat, List.foldl_cons,
        List.foldl_nil]
      have : (Char.ofNat (48 + n)).toNat = 48 + n := by interval_cases n <;> decide
      omega
    · have hdiv : n / 10 < 10 ^ fuel := by
        rw [Nat.div_lt_iff_lt_mul (by norm_num)]
        calc n < 10 ^ (fuel + 1) := h
        _ = 10 ^ fuel * 10 := by ring
      have ih := charsToNat_natToCharsAux fuel (n / 10) hdiv
      simp only [natToCharsAux, hn, if_false]
      unfold charsToNat at ih ⊢
      rw [List.foldl_append]
      simp only [List.foldl_cons, List.foldl_nil, ih]
      have hmod : n % 10 < 10 := Nat.mod_lt n (by norm_num)
      have : (Char.ofNat (48 + n % 10)).toNat = 48 + n % 10 := by
        interval_cases h : n % 10 <;> decide
      rw [this]
      omega

/-- `charsToNat` is a left inverse of `natToChars`. -/
theorem charsToNat_natToChars (n : Nat) : charsToNat (natToChars n) = n := by
  have h1 : n < 10 ^ n := Nat.lt_pow_self (by norm_num) n
  have h2 : (10 : Nat) ^ n ≤ 10 ^ (n + 1) :=
    Nat.pow_le_pow_right (by norm_num) (Nat.le_succ n)
  exact charsToNat_natToCharsAux (n + 1) n (lt_of_lt_of_le h1 h2)

/-- Decimal rendering is injective. -/
theorem natToChars_injective : Function.Injective natToChars := by
  intro a b h
  have := congrArg charsToNat h
  rwa [charsToNat_natToChars, charsToNat_natToChars] at this

/-- The basename produced by `pathBasename` contains no separator. -/
theorem pathBasename_no_slash (p : Chars) : '/' ∉ pathBasename p := by
  intro h
  unfold pathBasename at h
  rw [List.mem_reverse] at h
  have := List.mem_takeWhile_imp h
  simp at this

/-- The stem computed by `pathSplitExt` only uses characters of its
input. -/
theorem pathSplitExt_fst_subset (p : Chars) : (pathSplitExt p).1 ⊆ p := by
  simp only [pathSplitExt]
  split
  · exact fun a ha => ha
  · split
    · exact fun a ha => ha
    · intro a ha
      simp only at ha
      rcases List.mem_append.mp ha with h | h
      · rw [List.mem_reverse] at h
        exact List.mem_reverse.mp (List.dropWhile_subset _ h)
      · have h3 := List.mem_of_mem_take h
        rw [List.mem_reverse] at h3
        exact List.mem_reverse.mp ((List.takeWhile_sublist _).subset h3)

/-- `joinPath` with equal left arguments and slash-free right arguments is
cancellative on the right argument. -/
theorem joinPath_right_cancel {d x y : Chars}
    (hx : x.head? ≠ some '/') (hy : y.head? ≠ some '/')
    (h : joinPath d x = joinPath d y) : x = y := by
  unfold joinPath at h
  simp only [hx, hy, if_false] at h
  by_cases hd : d = [] ∨ d.getLast? = some '/'
  · simp only [hd, if_true] at h
    exact List.append_cancel_left h
  · simp only [hd, if_false] at h
    have h2 := List.append_cancel_left h
    injection h2

/-- The suffixed filenames for indices `≥ 2` are pairwise distinct. -/
theorem add_suffix_inj_ge2 (base : Chars) {n m : Nat}
    (hn : 2 ≤ n) (hm : 2 ≤ m)
    (h : add_suffix_to_filename base n = add_suffix_to_filename base m) :
    n = m := by
  unfold add_suffix_to_filename at h
  have hn' : ¬ n ≤ 1 := by omega
  have hm' : ¬ m ≤ 1 := by omega
  simp only [hn', hm', if_false] at h
  set se := pathSplitExt (pathBasename base) with hse
  have hstem : '/' ∉ se.1 := fun hmem =>
    pathBasename_no_slash base (pathSplitExt_fst_subset (pathBasename base) hmem)
  have hx : (se.1 ++ '_' :: (natToChars n ++ se.2)).head? ≠ some '/' := by
    cases hse1 : se.1 with
    | nil => simp [hse1]
    | cons a t =>
      simp only [hse1, List.cons_append, List.head?_cons, ne_eq, Option.some.injEq]
      intro hev
      exact hstem (by rw [hse1, hev]; exact List.mem_cons_self _ _)
  have hy : (se.1 ++ '_' :: (natToChars m ++ se.2)).head? ≠ some '/' := by
    cases hse1 : se.1 with
    | nil => simp [hse1]
    | cons a t =>
      simp only [hse1, List.cons_append, List.head?_cons, ne_eq, Option.some.injEq]
      intro hev
      exact hstem (by rw [hse1, hev]; exact List.mem_cons_self _ _)
  have h2 := joinPath_right_cancel hx hy h
  have h3 := List.append_cancel_left h2
  have h4 : natToChars n ++ se.2 = natToChars m ++ se.2 := by injection h3
  exact natToChars_injective (List.append_cancel_right h4)

/-- A path exists exactly when it is among the filesystem's paths. -/
theorem pathExists_iff_mem : ∀ (fs : FS) (p : Chars),
    FS.pathExists fs p = true ↔ p ∈ fs.map Prod.fst
  | [], p => by simp [FS.pathExists, FS.read]
  | (q, c) :: rest, p => by
    by_cases hq : q = p
    · simp [FS.pathExists, FS.read, hq]
    · simp only [FS.pathExists, FS.read, hq, if_false, List.map_cons,
        List.mem_cons]
      rw [← FS.pathExists]
      rw [pathExists_iff_mem rest p]
      constructor
      · exact Or.inr
      · rintro (h | h)
        · exact absurd h.symm hq
        · exact h

/-- Loop invariant of the suffix search: the result is the suffixed name
of its final index, which is at least the start index; every index
strictly between start and result exists on disk; and the result can only
exist on disk if the fuel was exhausted. -/
theorem uniqueDestAux_spec (fs : FS) (base : Chars) :
    ∀ (fuel n : Nat),
      (uniqueDestAux fs base fuel n).1 =
        add_suffix_to_filename base (uniqueDestAux fs base fuel n).2 ∧
      n ≤ (uniqueDestAux fs base fuel n).2 ∧
      (uniqueDestAux fs base fuel n).2 ≤ n + fuel ∧
      (∀ m, n ≤ m → m < (uniqueDestAux fs base fuel n).2 →
        FS.pathExists fs (add_suffix_to_filename base m) = true) ∧
      (FS.pathExists fs (uniqueDestAux fs base fuel n).1 = true →
        (uniqueDestAux fs base fuel n).2 = n + fuel)
  | 0, n => by
    have hr : (uniqueDestAux fs base 0 n).2 = n := rfl
    refine ⟨rfl, Nat.le_refl n, by omega, ?_, fun _ => rfl⟩
    intro m h1 h2
    rw [hr] at h2
    omega
  | fuel+1, n => by
    by_cases hex : FS.pathExists fs (add_suffix_to_filename base n) = true
    · have hrec := uniqueDestAux_spec fs base fuel (n + 1)
      have hstep : uniqueDestAux fs base (fuel+1) n =
          uniqueDestAux fs base fuel (n + 1) := by
        simp [uniqueDestAux, hex]
      rw [hstep]
      refine ⟨hrec.1, by omega, by omega, ?_, ?_⟩
      · intro m h1 h2
        by_cases hm : m = n
        · exact hm ▸ hex
        · exact hrec.2.2.2.1 m (by omega) h2
      · intro h
        have := hrec.2.2.2.2 h
        omega
    · have hstep : uniqueDestAux fs base (fuel+1) n =
          (add_suffix_to_filename base n, n) := by
        simp [uniqueDestAux, hex]
      rw [hstep]
      refine ⟨rfl, Nat.le_refl n, by omega, ?_, ?_⟩
      · intro m h1 h2
        simp only at h2
        omega
      · intro h
        exact absurd h hex

/-- The destination computed by `compute_unique_destination` never exists
on disk: the fuel `|fs| + 1` always suffices because the suffixed
candidates are pairwise distinct while the filesystem is finite. -/
theorem uniqueDest_not_exists (fs : FS) (base : Chars) :
    FS.pathExists fs (compute_unique_destination fs base 1).1 = false := by
  by_contra hex
  simp only [Bool.not_eq_false] at hex
  unfold compute_unique_destination at hex
  have hspec := uniqueDestAux_spec fs base (fs.length + 1) (max 1 1)
  simp only [Nat.max_self] at hspec hex
  have hfin := hspec.2.2.2.2 hex
  -- all indices 2, …, fs.length + 2 exist on disk
  have hall : ∀ m, 2 ≤ m → m ≤ fs.length + 2 →
      add_suffix_to_filename base m ∈ fs.map Prod.fst := by
    intro m h2 hle
    by_cases hm : m < (uniqueDestAux fs base (fs.length + 1) 1).2
    · exact (pathExists_iff_mem fs _).mp (hspec.2.2.2.1 m (by omega) hm)
    · have hm2 : m = fs.length + 2 := by omega
      subst hm2
      rw [show fs.length + 2 = 1 + (fs.length + 1) by omega, ← hfin, ← hspec.1]
      exact (pathExists_iff_mem fs _).mp hex
  -- pigeonhole: fs.length + 1 distinct paths inside a list of length fs.length
  have hnodup : ((List.range (fs.length + 1)).map
      (fun i => add_suffix_to_filename base (i + 2))).Nodup := by
    refine (List.nodup_range _).map ?_
    intro a b hab
    have := add_suffix_inj_ge2 base (n := a + 2) (m := b + 2)
      (by omega) (by omega) hab
    omega
  have hsub : ((List.range (fs.length + 1)).map
      (fun i => add_suffix_to_filename base (i + 2))) ⊆ fs.map Prod.fst := by
    intro x hx
    obtain ⟨i, hi, rfl⟩ := List.mem_map.mp hx
    rw [List.mem_range] at hi
    exact hall (i + 2) (by omega) (by omega)
  have hlen := (hnodup.subperm hsub).length_le
  simp at hlen

/-- Full specification of `compute_unique_destination` as called by the
planner (`start_n = 1`): the result carries the numeric suffix of its
final index `n`; the result does not exist on disk; every smaller index's
candidate does exist; and no suffix is used (`n = 1`, result = the base
name unchanged) exactly when the base name is free. -/
theorem compute_unique_destination_spec (fs : FS) (base : Chars) :
    let r := compute_unique_destination fs base 1
    r.1 = add_suffix_to_filename base r.2 ∧
    1 ≤ r.2 ∧
    FS.pathExists fs r.1 = false ∧
    (∀ m, 1 ≤ m → m < r.2 →
      FS.pathExists fs (add_suffix_to_filename base m) = true) ∧
    (r.2 = 1 ↔ FS.pathExists fs base = false) := by
  have hspec := uniqueDestAux_spec fs base (fs.length + 1) (max 1 1)
  simp only [Nat.max_self] at hspec
  have hne := uniqueDest_not_exists fs base
  refine ⟨hspec.1, hspec.2.1, hne, hspec.2.2.2.1, ⟨?_, ?_⟩⟩
  · intro h1
    have h2 : (compute_unique_destination fs base 1).1 = base := by
      unfold compute_unique_destination
      simp only [Nat.max_self]
      rw [hspec.1]
      unfold compute_unique_destination at h1
      simp only [Nat.max_self] at h1
      rw [h1]
      rfl
    rw [← h2]
    exact hne
  · intro hfree
    by_contra h1
    have h2 : 1 < (compute_unique_destination fs base 1).2 := by
      have := hspec.2.1
      unfold compute_unique_destination at h1 ⊢
      simp only [Nat.max_self] at *
      omega
    have := hspec.2.2.2.1 1 (Nat.le_refl 1)
      (by unfold compute_unique_destination at h2; simpa using h2)
    have hbase : add_suffix_to_filename base 1 = base := rfl
    rw [hbase] at this
    rw [this] at hfree
    exact absurd hfree (by simp)

/-! ### Filesystem and executor lemmas -/

theorem FS.read_write_self : ∀ (fs : FS) (p : Chars) (c : Content),
    FS.read (FS.write fs p c) p = some c
  | [], p, c => by simp [FS.write, FS.read]
  | (q, c0) :: rest, p, c => by
    by_cases hq : q = p
    · simp [FS.write, FS.read, hq]
    · simp only [FS.write, hq, if_false, FS.read]
      exact FS.read_write_self rest p c

theorem FS.read_write_ne : ∀ (fs : FS) (p : Chars) (c : Content) (q : Chars),
    q ≠ p → FS.read (FS.write fs p c) q = FS.read fs q
  | [], p, c, q, h => by simp [FS.write, FS.read, Ne.symm h]
  | (r, c0) :: rest, p, c, q, h => by
    by_cases hr : r = p
    · subst hr
      simp only [FS.write, if_true, FS.read]
      rw [if_neg (Ne.symm h), if_neg (Ne.symm h)]
    · simp only [FS.write, hr, if_false, FS.read]
      by_cases hrq : r = q
      · simp [hrq]
      · rw [if_neg hrq, if_neg hrq]
        exact FS.read_write_ne rest p c q h

theorem FS.read_remove_self : ∀ (fs : FS) (p : Chars),
    FS.read (FS.remove fs p) p = none
  | [], p => by simp [FS.remove, FS.read]
  | (q, c) :: rest, p => by
    by_cases hq : q = p
    · simp only [FS.remove, hq, if_true]
      exact FS.read_remove_self rest p
    · simp only [FS.remove, hq, if_false, FS.read]
      exact FS.read_remove_self rest p

theorem FS.read_remove_ne : ∀ (fs : FS) (p q : Chars),
    q ≠ p → FS.read (FS.remove fs p) q = FS.read fs q
  | [], p, q, h => by simp [FS.remove, FS.read]
  | (r, c) :: rest, p, q, h => by
    by_cases hr : r = p
    · subst hr
      simp only [FS.remove, if_true, FS.read]
      rw [if_neg (Ne.symm h)]
      exact FS.read_remove_ne rest r q h
    · simp only [FS.remove, hr, if_false, FS.read]
      by_cases hrq : r = q
      · simp [hrq]
      · rw [if_neg hrq, if_neg hrq]
        exact FS.read_remove_ne rest p q h

/-- The temporary sibling path is distinct from its destination. -/
theorem append_incoming_ne (p : Chars) : p ++ S ".incoming" ≠ p := by
  intro h
  have := congrArg List.length h
  simp [S] at this

/-- Effect of executing one copy operation with a readable source:
the destination holds the source content, every other path except the
temporary sibling is untouched, and the temporary sibling is absent
afterwards. -/
theorem applyOp_copy_spec (fs : FS) (op : Op) (c : Content)
    (hact : op.action = OpAction.copy) (hsrc : FS.read fs op.src = some c) :
    ∃ fs', applyOp fs op = some fs' ∧
      FS.read fs' op.dest_abs = some c ∧
      (∀ q, q ≠ op.dest_abs → q ≠ op.dest_abs ++ S ".incoming" →
        FS.read fs' q = FS.read fs q) ∧
      FS.read fs' (op.dest_abs ++ S ".incoming") = none := by
  have htd := append_incoming_ne op.dest_abs
  have happ : applyOp fs op = some (FS.write (FS.remove (FS.write
      (if FS.pathExists fs (op.dest_abs ++ S ".incoming") = true
        then FS.remove fs (op.dest_abs ++ S ".incoming") else fs)
      (op.dest_abs ++ S ".incoming") c) (op.dest_abs ++ S ".incoming"))
      op.dest_abs c) := by
    simp only [applyOp, hsrc, hact]
  refine ⟨_, happ, ?_, ?_, ?_⟩
  · exact FS.read_write_self _ _ _
  · intro q hqd hqt
    rw [FS.read_write_ne _ _ _ _ hqd, FS.read_remove_ne _ _ _ hqt,
      FS.read_write_ne _ _ _ _ hqt]
    by_cases hex : FS.pathExists fs (op.dest_abs ++ S ".incoming") = true
    · simp only [hex, if_true]
      exact FS.read_remove_ne _ _ _ hqt
    · simp [hex]
  · rw [FS.read_write_ne _ _ _ _ htd]
    exact FS.read_remove_self _ _

/-- In a copy-only run, a path that is neither a planned destination nor a
planned temporary sibling keeps its content — even if the run aborts
part-way. -/
theorem applyOps_copy_untouched (p : Chars) :
    ∀ (ops : List Op) (fs : FS),
      (∀ op ∈ ops, op.action = OpAction.copy) →
      (∀ op ∈ ops, op.dest_abs ≠ p) →
      (∀ op ∈ ops, op.dest_abs ++ S ".incoming" ≠ p) →
      FS.read (applyOps fs ops).1 p = FS.read fs p
  | [], fs, _, _, _ => rfl
  | op :: rest, fs, hact, hdest, htemp => by
    cases hread : FS.read fs op.src with
    | none =>
      have : applyOps fs (op :: rest) = (fs, true) := by
        simp only [applyOps, applyOp, hread]
      rw [this]
    | some c =>
      obtain ⟨fs', happ, _, huntouched, _⟩ :=
        applyOp_copy_spec fs op c (hact op (by simp)) hread
      have hstep : applyOps fs (op :: rest) = applyOps fs' rest := by
        simp only [applyOps, happ]
      rw [hstep]
      rw [applyOps_copy_untouched p rest fs'
        (fun o ho => hact o (List.mem_cons_of_mem op ho))
        (fun o ho => hdest o (List.mem_cons_of_mem op ho))
        (fun o ho => htemp o (List.mem_cons_of_mem op ho))]
      exact huntouched p (fun he => hdest op (by simp) he.symm)
        (fun he => htemp op (by simp) he.symm)

/-- Soundness of a copy-only run under the planner's freshness guarantees:
the run never aborts, untouched paths are preserved, and each destination
ends up holding its source's (pre-run) content. -/
theorem applyOps_copy_run :
    ∀ (ops : List Op) (fs : FS),
      (∀ op ∈ ops, op.action = OpAction.copy) →
      (∀ op ∈ ops, (FS.read fs op.src).isSome) →
      (∀ op ∈ ops, FS.pathExists fs op.dest_abs = false) →
      (∀ op ∈ ops, FS.pathExists fs (op.dest_abs ++ S ".incoming") = false) →
      (ops.map (fun o => o.dest_abs)).Nodup →
      (∀ op ∈ ops, ∀ op' ∈ ops, op.dest_abs ++ S ".incoming" ≠ op'.dest_abs) →
      (applyOps fs ops).2 = false ∧
      (∀ p, (∀ op ∈ ops, op.dest_abs ≠ p) →
        FS.read (applyOps fs ops).1 p = FS.read fs p) ∧
      (∀ op ∈ ops, FS.read (applyOps fs ops).1 op.dest_abs = FS.read fs op.src)
  | [], fs, _, _, _, _, _, _ => ⟨rfl, fun _ _ => rfl, fun _ h => absurd h (by simp)⟩
  | op :: rest, fs, hact, hsrc, hdfresh, htfresh, hnodup, htd => by
    obtain ⟨c, hread⟩ := Option.isSome_iff_exists.mp (hsrc op (by simp))
    obtain ⟨fs', happ, hdest_read, huntouched, htemp_read⟩ :=
      applyOp_copy_spec fs op c (hact op (by simp)) hread
    have hstep : applyOps fs (op :: rest) = applyOps fs' rest := by
      simp only [applyOps, happ]
    -- paths readable in `fs` are neither the head's destination nor its temp
    have hreadable_preserved : ∀ q, (FS.read fs q).isSome →
        FS.read fs' q = FS.read fs q := by
      intro q hq
      refine huntouched q ?_ ?_
      · intro he
        have h2 := hdfresh op (by simp)
        rw [← he] at h2
        simp only [FS.pathExists] at h2
        rw [h2] at hq
        simp at hq
      · intro he
        have h2 := htfresh op (by simp)
        rw [← he] at h2
        simp only [FS.pathExists] at h2
        rw [h2] at hq
        simp at hq
    -- fresh paths of `fs` other than the head's destination stay fresh
    have hfresh_preserved : ∀ q, FS.pathExists fs q = false →
        q ≠ op.dest_abs → q ≠ op.dest_abs ++ S ".incoming" →
        FS.pathExists fs' q = false := by
      intro q hq hqd hqt
      simp only [FS.pathExists] at hq ⊢
      rw [huntouched q hqd hqt]
      exact hq
    have hnodup2 := List.nodup_cons.mp hnodup
    have hop_dest_notmem : ∀ o ∈ rest, o.dest_abs ≠ op.dest_abs := by
      intro o ho he
      exact hnodup2.1 (by simpa [← he] using
        List.mem_map_of_mem (fun o => o.dest_abs) ho)
    have hrest := applyOps_copy_run rest fs'
      (fun o ho => hact o (List.mem_cons_of_mem op ho))
      (by
        intro o ho
        have h1 := hsrc o (List.mem_cons_of_mem op ho)
        rw [hreadable_preserved o.src h1]
        exact h1)
      (by
        intro o ho
        refine hfresh_preserved o.dest_abs
          (hdfresh o (List.mem_cons_of_mem op ho)) (hop_dest_notmem o ho) ?_
        intro he
        exact htd op (by simp) o (List.mem_cons_of_mem op ho) he.symm)
      (by
        intro o ho
        by_cases hot : o.dest_abs ++ S ".incoming" = op.dest_abs ++ S ".incoming"
        · simp only [FS.pathExists]
          rw [hot, htemp_read]
          rfl
        · refine hfresh_preserved _ (htfresh o (List.mem_cons_of_mem op ho)) ?_ hot
          exact htd o (List.mem_cons_of_mem op ho) op (by simp))
      hnodup2.2
      (fun o ho o' ho' => htd o (List.mem_cons_of_mem op ho) o'
        (List.mem_cons_of_mem op ho'))
    refine ⟨by rw [hstep]; exact hrest.1, ?_, ?_⟩
    · intro p hp
      rw [hstep]
      rw [hrest.2.1 p (fun o ho => hp o (List.mem_cons_of_mem op ho))]
      by_cases hpt : p = op.dest_abs ++ S ".incoming"
      · subst hpt
        rw [htemp_read]
        have h2 := htfresh op (by simp)
        simp only [FS.pathExists] at h2
        cases hr : FS.read fs (op.dest_abs ++ S ".incoming")
        · rfl
        · rw [hr] at h2; simp at h2
      · exact huntouched p (fun he => hp op (by simp) he.symm) hpt
    · intro o ho
      rcases List.mem_cons.mp ho with rfl | ho'
      · rw [hstep]
        rw [hrest.2.1 o.dest_abs (hop_dest_notmem)]
        rw [hdest_read, hread]
      · rw [hstep]
        rw [hrest.2.2 o ho']
        exact hreadable_preserved o.src (hsrc o (List.mem_cons_of_mem op ho'))

/-! ### Planner invariants -/

/-- The abstract deduplication state of `main`'s group loop: the list of
distinct fingerprints seen so far and the count of kept (unique) items. -/
def dedupState (fs : FS) : List GItem → List Content × Nat → List Content × Nat
  | [], sc => sc
  | it :: rest, sc =>
    match compute_file_hash fs it.src with
    | some c =>
      if c ∈ sc.1 then dedupState fs rest sc
      else dedupState fs rest (sc.1 ++ [c], sc.2 + 1)
    | none => dedupState fs rest (sc.1, sc.2 + 1)

/-- The kept-item destination assigned by `planKeep`. -/
def keepDest (cfg : Config) (fs : FS) (uc : Nat) (it : GItem) : Chars :=
  (compute_unique_destination fs (assignCandidate cfg uc it) 1).1

/-- Field-by-field characterization of `planKeep`. -/
theorem planKeep_spec (cfg : Config) (fs : FS) (vlen : Nat) (st : GState)
    (it : GItem) :
    (planKeep cfg fs vlen st it).seen = st.seen ∧
    (planKeep cfg fs vlen st it).uniqueCount = st.uniqueCount + 1 ∧
    (planKeep cfg fs vlen st it).hashed = st.hashed ∧
    (planKeep cfg fs vlen st it).identicalSkipped = st.identicalSkipped ∧
    (planKeep cfg fs vlen st it).rep = (if 1 < vlen then st.rep ++
      [RepEntry.planned it.src (relpath cfg.cwd
        (keepDest cfg fs (st.uniqueCount + 1) it) cfg.dest_root)] else st.rep) ∧
    (if abspath cfg.cwd it.src =
        abspath cfg.cwd (keepDest cfg fs (st.uniqueCount + 1) it)
     then (planKeep cfg fs vlen st it).ops = st.ops ∧
       (planKeep cfg fs vlen st it).alreadyInPlace = st.alreadyInPlace + 1
     else (planKeep cfg fs vlen st it).ops = st.ops ++
         [{ action := if cfg.move then OpAction.move else OpAction.copy
            src := it.src
            dest_abs := keepDest cfg fs (st.uniqueCount + 1) it
            dest_rel := relpath cfg.cwd
              (keepDest cfg fs (st.uniqueCount + 1) it) cfg.dest_root
            size := it.size }] ∧
       (planKeep cfg fs vlen st it).alreadyInPlace = st.alreadyInPlace) := by
  unfold planKeep keepDest
  by_cases hip : abspath cfg.cwd it.src = abspath cfg.cwd
      ((compute_unique_destination fs (assignCandidate cfg (st.uniqueCount + 1) it) 1).1)
  · simp [hip]
  · simp [hip]

/-- Source path of a report entry. -/
def repSrc : RepEntry → Chars
  | .skipped src => src
  | .planned src _ => src

/-- The readable contents of a list of operations' sources. -/
def opContents (fs : FS) (ops : List Op) : List Content :=
  ops.filterMap (fun op => FS.read fs op.src)

/-- `planGroupStep` on a bit-identical duplicate. -/
theorem planGroupStep_skip (cfg : Config) (fs : FS) (vlen : Nat)
    (st : GState) (it : GItem) (c : Content)
    (hc : compute_file_hash fs it.src = some c) (hmem : c ∈ st.seen) :
    planGroupStep cfg fs vlen st it =
      { st with
        hashed := st.hashed ++ [it.src]
        identicalSkipped := st.identicalSkipped + 1
        rep := if 1 < vlen then st.rep ++ [RepEntry.skipped it.src] else st.rep } := by
  simp [planGroupStep, hc, hmem]

/-- `planGroupStep` on a fresh readable content. -/
theorem planGroupStep_keep_new (cfg : Config) (fs : FS) (vlen : Nat)
    (st : GState) (it : GItem) (c : Content)
    (hc : compute_file_hash fs it.src = some c) (hmem : c ∉ st.seen) :
    planGroupStep cfg fs vlen st it =
      planKeep cfg fs vlen
        { st with hashed := st.hashed ++ [it.src], seen := st.seen ++ [c] } it := by
  simp [planGroupStep, hc, hmem]

/-- `planGroupStep` on an unreadable source (treated as unique). -/
theorem planGroupStep_keep_none (cfg : Config) (fs : FS) (vlen : Nat)
    (st : GState) (it : GItem)
    (hc : compute_file_hash fs it.src = none) :
    planGroupStep cfg fs vlen st it =
      planKeep cfg fs vlen { st with hashed := st.hashed ++ [it.src] } it := by
  simp [planGroupStep, hc]

/-- The fold over a group tracks exactly the abstract deduplication
state. -/
theorem foldl_seen_uc (cfg : Config) (fs : FS) (vlen : Nat) :
    ∀ (items : List GItem) (st : GState),
      ((items.foldl (planGroupStep cfg fs vlen) st).seen,
       (items.foldl (planGroupStep cfg fs vlen) st).uniqueCount) =
      dedupState fs items (st.seen, st.uniqueCount)
  | [], st => rfl
  | it :: rest, st => by
    rw [List.foldl_cons]
    cases hc : compute_file_hash fs it.src with
    | some c =>
      by_cases hmem : c ∈ st.seen
      · rw [planGroupStep_skip cfg fs vlen st it c hc hmem]
        rw [foldl_seen_uc cfg fs vlen rest _]
        simp [dedupState, hc, hmem]
      · rw [planGroupStep_keep_new cfg fs vlen st it c hc hmem]
        rw [foldl_seen_uc cfg fs vlen rest _]
        have hk := planKeep_spec cfg fs vlen
          { st with hashed := st.hashed ++ [it.src], seen := st.seen ++ [c] } it
        simp only [dedupState, hc, hmem, if_false]
        rw [hk.1, hk.2.1]
    | none =>
      rw [planGroupStep_keep_none cfg fs vlen st it hc]
      rw [foldl_seen_uc cfg fs vlen rest _]
      have hk := planKeep_spec cfg fs vlen
        { st with hashed := st.hashed ++ [it.src] } it
      simp only [dedupState, hc]
      rw [hk.1, hk.2.1]

/-- The group fold only appends operations and report entries; every new
operation comes from some processed item via `planKeep`'s naming scheme,
every new report entry names a processed item's source, and exactly one
hash event is recorded per processed item. -/
theorem foldl_plan_mono (cfg : Config) (fs : FS) (vlen : Nat) :
    ∀ (items : List GItem) (st : GState),
      ∃ newOps newRep,
        (items.foldl (planGroupStep cfg fs vlen) st).ops = st.ops ++ newOps ∧
        (items.foldl (planGroupStep cfg fs vlen) st).rep = st.rep ++ newRep ∧
        (items.foldl (planGroupStep cfg fs vlen) st).hashed =
          st.hashed ++ items.map GItem.src ∧
        (∀ op ∈ newOps, ∃ it ∈ items, ∃ uc,
          op.src = it.src ∧ op.size = it.size ∧
          op.dest_abs = keepDest cfg fs uc it ∧
          op.dest_rel = relpath cfg.cwd (keepDest cfg fs uc it) cfg.dest_root ∧
          op.action = (if cfg.move then OpAction.move else OpAction.copy)) ∧
        (∀ e ∈ newRep, repSrc e ∈ items.map GItem.src)
  | [], st => ⟨[], [], by simp, by simp, by simp, by simp, by simp⟩
  | it :: rest, st => by
    rw [List.foldl_cons]
    have hcaseOps : ∀ (st₂ : GState),
        st₂ = planGroupStep cfg fs vlen st it →
        (st₂.ops = st.ops ∨ ∃ uc, st₂.ops = st.ops ++
          [{ action := if cfg.move then OpAction.move else OpAction.copy
             src := it.src
             dest_abs := keepDest cfg fs uc it
             dest_rel := relpath cfg.cwd (keepDest cfg fs uc it) cfg.dest_root
             size := it.size }]) ∧
        (st₂.rep = st.rep ∨ ∃ e, repSrc e = it.src ∧ st₂.rep = st.rep ++ [e]) ∧
        st₂.hashed = st.hashed ++ [it.src] := by
      intro st₂ hst₂
      cases hc : compute_file_hash fs it.src with
      | some c =>
        by_cases hmem : c ∈ st.seen
        · rw [planGroupStep_skip cfg fs vlen st it c hc hmem] at hst₂
          subst hst₂
          refine ⟨Or.inl rfl, ?_, rfl⟩
          by_cases hv : 1 < vlen
          · exact Or.inr ⟨RepEntry.skipped it.src, rfl, by simp [hv]⟩
          · exact Or.inl (by simp [hv])
        · rw [planGroupStep_keep_new cfg fs vlen st it c hc hmem] at hst₂
          set st' : GState :=
            { st with hashed := st.hashed ++ [it.src], seen := st.seen ++ [c] }
          have hk := planKeep_spec cfg fs vlen st' it
          subst hst₂
          constructor
          · rcases hsplit : (decide (abspath cfg.cwd it.src =
                abspath cfg.cwd (keepDest cfg fs (st'.uniqueCount + 1) it))) with _ | _
            · right
              refine ⟨st'.uniqueCount + 1, ?_⟩
              have := hk.2.2.2.2.2
              rw [if_neg (by simpa using hsplit)] at this
              exact this.1
            · left
              have := hk.2.2.2.2.2
              rw [if_pos (by simpa using hsplit)] at this
              exact this.1
          constructor
          · by_cases hv : 1 < vlen
            · right
              refine ⟨RepEntry.planned it.src (relpath cfg.cwd
                (keepDest cfg fs (st'.uniqueCount + 1) it) cfg.dest_root), rfl, ?_⟩
              have := hk.2.2.2.2.1
              rw [if_pos hv] at this
              exact this
            · left
              have := hk.2.2.2.2.1
              rw [if_neg hv] at this
              exact this
          · exact hk.2.2.1
      | none =>
        rw [planGroupStep_keep_none cfg fs vlen st it hc] at hst₂
        set st' : GState := { st with hashed := st.hashed ++ [it.src] }
        have hk := planKeep_spec cfg fs vlen st' it
        subst hst₂
        constructor
        · rcases hsplit : (decide (abspath cfg.cwd it.src =
              abspath cfg.cwd (keepDest cfg fs (st'.uniqueCount + 1) it))) with _ | _
          · right
            refine ⟨st'.uniqueCount + 1, ?_⟩
            have := hk.2.2.2.2.2
            rw [if_neg (by simpa using hsplit)] at this
            exact this.1
          · left
            have := hk.2.2.2.2.2
            rw [if_pos (by simpa using hsplit)] at this
            exact this.1
        constructor
        · by_cases hv : 1 < vlen
          · right
            refine ⟨RepEntry.planned it.src (relpath cfg.cwd
              (keepDest cfg fs (st'.uniqueCount + 1) it) cfg.dest_root), rfl, ?_⟩
            have := hk.2.2.2.2.1
            rw [if_pos hv] at this
            exact this
          · left
            have := hk.2.2.2.2.1
            rw [if_neg hv] at this
            exact this
        · exact hk.2.2.1
    obtain ⟨hops2, hrep2, hhash2⟩ := hcaseOps _ rfl
    obtain ⟨newOps, newRep, hops, hrep, hhash, hopsrc, hrepsrc⟩ :=
      foldl_plan_mono cfg fs vlen rest (planGroupStep cfg fs vlen st it)
    rcases hops2 with h2 | ⟨uc, h2⟩ <;> rcases hrep2 with h3 | ⟨e, he, h3⟩
    · refine ⟨newOps, newRep, by rw [hops, h2], by rw [hrep, h3],
        by rw [hhash, hhash2]; simp, ?_, ?_⟩
      · intro op hop
        obtain ⟨it', hit', huc, hrest⟩ := hopsrc op hop
        exact ⟨it', List.mem_cons_of_mem it hit', huc, hrest⟩
      · intro e' he'
        have := hrepsrc e' he'
        simp only [List.map_cons, List.mem_cons]
        exact Or.inr this
    · refine ⟨newOps, e :: newRep, by rw [hops, h2], by rw [hrep, h3]; simp, by rw [hhash, hhash2]; simp, ?_, ?_⟩
      · intro op hop
        obtain ⟨it', hit', huc, hrest⟩ := hopsrc op hop
        exact ⟨it', List.mem_cons_of_mem it hit', huc, hrest⟩
      · intro e' he'
        rcases List.mem_cons.mp he' with rfl | he''
        · simp [he]
        · have := hrepsrc e' he''
          simp only [List.map_cons, List.mem_cons]
          exact Or.inr this
    · refine ⟨{ action := if cfg.move then OpAction.move else OpAction.copy
                src := it.src
                dest_abs := keepDest cfg fs uc it
                dest_rel := relpath cfg.cwd (keepDest cfg fs uc it) cfg.dest_root
                size := it.size } :: newOps, newRep,
        by rw [hops, h2]; simp, by rw [hrep, h3], by rw [hhash, hhash2]; simp, ?_, ?_⟩
      · intro op hop
        rcases List.mem_cons.mp hop with rfl | hop'
        · exact ⟨it, by simp, uc, rfl, rfl, rfl, rfl, rfl⟩
        · obtain ⟨it', hit', huc, hrest⟩ := hopsrc op hop'
          exact ⟨it', List.mem_cons_of_mem it hit', huc, hrest⟩
      · intro e' he'
        have := hrepsrc e' he'
        simp only [List.map_cons, List.mem_cons]
        exact Or.inr this
    · refine ⟨{ action := if cfg.move then OpAction.move else OpAction.copy
                src := it.src
                dest_abs := keepDest cfg fs uc it
                dest_rel := relpath cfg.cwd (keepDest cfg fs uc it) cfg.dest_root
                size := it.size } :: newOps, e :: newRep,
        by rw [hops, h2]; simp, by rw [hrep, h3]; simp, by rw [hhash, hhash2]; simp, ?_, ?_⟩
      · intro op hop
        rcases List.mem_cons.mp hop with rfl | hop'
        · exact ⟨it, by simp, uc, rfl, rfl, rfl, rfl, rfl⟩
        · obtain ⟨it', hit', huc, hrest⟩ := hopsrc op hop'
          exact ⟨it', List.mem_cons_of_mem it hit', huc, hrest⟩
      · intro e' he'
        rcases List.mem_cons.mp he' with rfl | he''
        · simp [he]
        · have := hrepsrc e' he''
          simp only [List.map_cons, List.mem_cons]
          exact Or.inr this

/-- Invariant: the fingerprints seen so far are pairwise distinct, and the
readable contents of the planned operations form a sublist of them
(so the planned operations carry pairwise distinct contents). -/
theorem foldl_contents_inv (cfg : Config) (fs : FS) (vlen : Nat) :
    ∀ (items : List GItem) (st : GState),
      st.seen.Nodup → List.Sublist (opContents fs st.ops) st.seen →
      (items.foldl (planGroupStep cfg fs vlen) st).seen.Nodup ∧
      List.Sublist (opContents fs (items.foldl (planGroupStep cfg fs vlen) st).ops)
        (items.foldl (planGroupStep cfg fs vlen) st).seen
  | [], st, h1, h2 => ⟨h1, h2⟩
  | it :: rest, st, h1, h2 => by
    rw [List.foldl_cons]
    cases hc : compute_file_hash fs it.src with
    | some c =>
      by_cases hmem : c ∈ st.seen
      · rw [planGroupStep_skip cfg fs vlen st it c hc hmem]
        exact foldl_contents_inv cfg fs vlen rest _ h1 h2
      · rw [planGroupStep_keep_new cfg fs vlen st it c hc hmem]
        set st' : GState :=
          { st with hashed := st.hashed ++ [it.src], seen := st.seen ++ [c] }
        have hk := planKeep_spec cfg fs vlen st' it
        have hseen' : (planKeep cfg fs vlen st' it).seen = st.seen ++ [c] := hk.1
        have hnodup' : (st.seen ++ [c]).Nodup := by
          rw [List.nodup_append]
          exact ⟨h1, List.nodup_singleton c, by simpa using hmem⟩
        refine foldl_contents_inv cfg fs vlen rest _ (by rw [hseen']; exact hnodup') ?_
        rw [hseen']
        have hsplit := hk.2.2.2.2.2
        by_cases hip : abspath cfg.cwd it.src =
            abspath cfg.cwd (keepDest cfg fs (st'.uniqueCount + 1) it)
        · rw [if_pos hip] at hsplit
          rw [hsplit.1]
          exact h2.trans (List.sublist_append_left _ _)
        · rw [if_neg hip] at hsplit
          rw [hsplit.1]
          simp only [opContents, List.filterMap_append]
          refine List.Sublist.append h2 ?_
          simp only [opContents, List.filterMap_cons]
          rw [show FS.read fs it.src = some c from hc]
          simp
    | none =>
      rw [planGroupStep_keep_none cfg fs vlen st it hc]
      set st' : GState := { st with hashed := st.hashed ++ [it.src] }
      have hk := planKeep_spec cfg fs vlen st' it
      have hseen' : (planKeep cfg fs vlen st' it).seen = st.seen := hk.1
      refine foldl_contents_inv cfg fs vlen rest _ (by rw [hseen']; exact h1) ?_
      rw [hseen']
      have hsplit := hk.2.2.2.2.2
      by_cases hip : abspath cfg.cwd it.src =
          abspath cfg.cwd (keepDest cfg fs (st'.uniqueCount + 1) it)
      · rw [if_pos hip] at hsplit
        rw [hsplit.1]
        exact h2
      · rw [if_neg hip] at hsplit
        rw [hsplit.1]
        simp only [opContents, List.filterMap_append]
        have : List.filterMap (fun op : Op => FS.read fs op.src)
            [{ action := if cfg.move then OpAction.move else OpAction.copy
               src := it.src
               dest_abs := keepDest cfg fs (st'.uniqueCount + 1) it
               dest_rel := relpath cfg.cwd
                 (keepDest cfg fs (st'.uniqueCount + 1) it) cfg.dest_root
               size := it.size }] = [] := by
          simp only [List.filterMap_cons]
          rw [show FS.read fs it.src = none from hc]
          rfl
        rw [this]
        simpa using h2

/-! ### Concrete fixtures for closed theorems -/

/-- A concrete configuration (apply mode, copy, default token). -/
def exCfg : Config :=
  { pattern := S "%A/%L/%S"
    dest_root := S "/out"
    apply := true
    move := false
    keep_unknowns := false
    duplicate_token := S "_duplicate_"
    duplicates_json := S "duplicates.json"
    cwd := S "/cwd"
    scriptDir := S "/repo" }

/-- The same configuration in dry-run mode. -/
def exCfgDry : Config := { exCfg with apply := false }

/-- A plain fully-recognized metadata record. -/
def exMeta : Meta :=
  { author := some (S "Art"), album := some (S "Alb"), song := some (S "Song") }

/-! ### Claim C7 — unknown flags -/

/-- **C7 (counterexample).** A field whose unknown-flag is literally
`False` is still treated as unknown when its text matches the heuristic:
with `author_unknown = False` and `author = "unknown"`, `main` substitutes
`"Unknown Artist"`.  The claim's second half (a false flag suppresses the
text heuristic) is false. -/
theorem unknown_flag_false_not_respected :
    treatedUnknown (some false) (some (S "unknown")) = true ∧
    (processEntry exCfg [] (S "/m/a.mp3")
      { author := some (S "unknown"), author_unknown := some false
        album := some (S "Alb"), song := some (S "Song") }).author_s =
      S "Unknown Artist" := by
  constructor
  · decide
  · decide

/-- **C7 (amended).** An unknown-flag equal to `True` forces the field to
be treated as unknown regardless of its text; when the flag is absent,
false, or any non-`True` value, the decision falls to the case-insensitive
text heuristic (a false flag does not suppress it). -/
theorem unknown_flag_semantics (flag : Option Bool) (text : Option Chars) :
    (flag = some true → treatedUnknown flag text = true) ∧
    (flag ≠ some true → treatedUnknown flag text = isUnknownOpt text) := by
  constructor
  · intro h
    simp [treatedUnknown, h]
  · intro h
    simp [treatedUnknown, h]

/-- Witness for `unknown_flag_semantics` at concrete inputs. -/
theorem unknown_flag_semantics_witness :
    treatedUnknown (some true) (some (S "Queen")) = true ∧
    treatedUnknown (some false) (some (S "unknown")) =
      isUnknownOpt (some (S "unknown")) :=
  ⟨(unknown_flag_semantics (some true) (some (S "Queen"))).1 rfl,
   (unknown_flag_semantics (some false) (some (S "unknown"))).2 (by decide)⟩

/-! ### Claim C4 — determinism of the dry-run report -/

/-- **C4 (counterexample).** Two dry-run executions on a fixed mapping and
fixed filesystem do *not* produce byte-identical reports: the report
embeds the wall-clock `generated_at` timestamp. -/
theorem dryrun_reports_not_byte_identical :
    (runMain exCfgDry [(S "/m/x.mp3", [1])] [(S "/m/x.mp3", some exMeta)]
      (S "2024-01-01T00:00:00+00:00")).report ≠
    (runMain exCfgDry [(S "/m/x.mp3", [1])] [(S "/m/x.mp3", some exMeta)]
      (S "2024-01-01T00:00:01+00:00")).report := by
  decide

/-- **C4 (amended).** For a fixed configuration, metadata mapping and
pre-existing filesystem state, two dry-run executions produce reports that
are identical except for the `generated_at` timestamp field. -/
theorem dryrun_report_deterministic_up_to_timestamp (cfg : Config) (fs : FS)
    (mapping : Mapping) (t1 t2 : Chars) (h : cfg.apply = false) :
    ∃ r1 r2, (runMain cfg fs mapping t1).report = some r1 ∧
      (runMain cfg fs mapping t2).report = some r2 ∧
      { r1 with generated_at := t2 } = r2 := by
  refine ⟨buildReport cfg t1 (planAll cfg fs (groupEntries cfg fs mapping).groups),
    buildReport cfg t2 (planAll cfg fs (groupEntries cfg fs mapping).groups),
    ?_, ?_, ?_⟩
  · simp [runMain, h]
  · simp [runMain, h]
  · rfl

/-- Witness for `dryrun_report_deterministic_up_to_timestamp`. -/
theorem dryrun_report_deterministic_witness :
    ∃ r1 r2,
      (runMain exCfgDry [(S "/m/x.mp3", [1])] [(S "/m/x.mp3", some exMeta)]
        (S "A")).report = some r1 ∧
      (runMain exCfgDry [(S "/m/x.mp3", [1])] [(S "/m/x.mp3", some exMeta)]
        (S "B")).report = some r2 ∧
      { r1 with generated_at := S "B" } = r2 :=
  dryrun_report_deterministic_up_to_timestamp exCfgDry
    [(S "/m/x.mp3", [1])] [(S "/m/x.mp3", some exMeta)] (S "A") (S "B") rfl

/-! ### Claim C5 — destination race -/

/-- **C5 (code bug).** When a resolved destination already exists at
execution time (a race with an external process), the apply loop does
*not* fail that operation or report an error: `os.replace` silently
overwrites the pre-existing destination file.  Concretely: the plan
resolves `/out/Art/Alb/Song.mp3` while it does not exist; executing
against a filesystem where an external process has since created that
path with content `[9]` terminates without any error signal and the
pre-existing file's content has been replaced by the source's bytes. -/
theorem destination_race_silently_overwrites :
    (runMain exCfgDry [(S "/m/x.mp3", [1, 2])] [(S "/m/x.mp3", some exMeta)]
      (S "T")).plan.ops.map (fun o => o.dest_abs) = [S "/out/Art/Alb/Song.mp3"] ∧
    FS.pathExists [(S "/m/x.mp3", [1, 2])] (S "/out/Art/Alb/Song.mp3") = false ∧
    applyOps [(S "/m/x.mp3", [1, 2]), (S "/out/Art/Alb/Song.mp3", [9])]
      (runMain exCfgDry [(S "/m/x.mp3", [1, 2])] [(S "/m/x.mp3", some exMeta)]
        (S "T")).plan.ops =
      ([(S "/m/x.mp3", [1, 2]), (S "/out/Art/Alb/Song.mp3", [1, 2])], false) := by
  refine ⟨by decide, by decide, by decide⟩

/-! ### Grouping and whole-plan lemmas -/

/-- The `src` and `size` fields of a processed entry. -/
theorem processEntry_src (cfg : Config) (fs : FS) (src : Chars) (meta : Meta) :
    (processEntry cfg fs src meta).src = src := rfl

/-- A processed entry has nonnegative size exactly when its source is
readable. -/
theorem processEntry_size_nonneg (cfg : Config) (fs : FS) (src : Chars)
    (meta : Meta) (h : 0 ≤ (processEntry cfg fs src meta).size) :
    (FS.read fs src).isSome := by
  have hsz : (processEntry cfg fs src meta).size =
      (match FS.read fs src with
       | some c => (c.length : Int)
       | none => -1) := rfl
  cases hr : FS.read fs src with
  | some c => rfl
  | none =>
    rw [hsz] at h
    rw [hr] at h
    simp at h

/-- The missing-sources list only grows along the grouping fold. -/
theorem groupEntries_missing_mono (cfg : Config) (fs : FS) :
    ∀ (mapping : Mapping) (st : GroupingResult),
      ∃ ext, (mapping.foldl (groupStep cfg fs) st).missing = st.missing ++ ext
  | [], st => ⟨[], by simp⟩
  | e :: rest, st => by
    rw [List.foldl_cons]
    obtain ⟨ext, hext⟩ := groupEntries_missing_mono cfg fs rest (groupStep cfg fs st e)
    rcases e with ⟨src, meta?⟩
    cases meta? with
    | none => exact ⟨ext, by simpa [groupStep] using hext⟩
    | some meta =>
      by_cases hd : src.head? = some '$'
      · exact ⟨ext, by simpa [groupStep, hd] using hext⟩
      · by_cases hm : (processEntry cfg fs src meta).size < 0
        · refine ⟨src :: ext, ?_⟩
          rw [hext]
          simp [groupStep, hd, hm]
        · refine ⟨ext, ?_⟩
          rw [hext]
          simp [groupStep, hd, hm]

/-- An unstatable mapping entry is recorded as a missing source. -/
theorem groupEntries_missing_mem (cfg : Config) (fs : FS) :
    ∀ (mapping : Mapping) (st : GroupingResult) (src : Chars) (meta : Meta),
      (src, some meta) ∈ mapping → src.head? ≠ some '$' →
      FS.read fs src = none →
      src ∈ (mapping.foldl (groupStep cfg fs) st).missing
  | [], _, _, _, hmem, _, _ => absurd hmem (by simp)
  | e :: rest, st, src, meta, hmem, hd, hr => by
    rw [List.foldl_cons]
    rcases List.mem_cons.mp hmem with he | he
    · subst he
      obtain ⟨ext, hext⟩ := groupEntries_missing_mono cfg fs rest
        (groupStep cfg fs st (src, some meta))
      rw [hext]
      have hm : (processEntry cfg fs src meta).size < 0 := by
        have hsz : (processEntry cfg fs src meta).size =
            (match FS.read fs src with
             | some c => (c.length : Int)
             | none => -1) := rfl
        rw [hsz]
        rw [hr]
        simp
      have : (groupStep cfg fs st (src, some meta)).missing =
          st.missing ++ [src] := by
        simp [groupStep, hd, hm]
      rw [this]
      simp
    · exact groupEntries_missing_mem cfg fs rest _ src meta he hd hr

/-- Every item stored in the grouping result was produced by
`processEntry` on this filesystem: nonnegative size implies a readable
source. -/
theorem groupEntries_items_readable (cfg : Config) (fs : FS) :
    ∀ (mapping : Mapping) (st : GroupingResult),
      (∀ kg ∈ st.groups, ∀ it ∈ kg.2, 0 ≤ it.size → (FS.read fs it.src).isSome) →
      ∀ kg ∈ (mapping.foldl (groupStep cfg fs) st).groups, ∀ it ∈ kg.2,
        0 ≤ it.size → (FS.read fs it.src).isSome
  | [], st, hst => hst
  | e :: rest, st, hst => by
    rw [List.foldl_cons]
    refine groupEntries_items_readable cfg fs rest _ ?_
    rcases e with ⟨src, meta?⟩
    cases meta? with
    | none => simpa [groupStep] using hst
    | some meta =>
      by_cases hd : src.head? = some '$'
      · simpa [groupStep, hd] using hst
      · intro kg hkg it hit hsz
        simp only [groupStep, hd, if_false] at hkg
        have hup : ∀ gs k x kg', kg' ∈ upsertGroup gs k x → ∀ i ∈ kg'.2,
            (∃ kg'' ∈ gs, i ∈ kg''.2) ∨ i = x := by
          intro gs
          induction gs with
          | nil =>
            intro k x kg' hkg' i hi
            simp only [upsertGroup, List.mem_singleton] at hkg'
            subst hkg'
            simp only [List.mem_singleton] at hi
            exact Or.inr hi
          | cons hd2 tl ih =>
            intro k x kg' hkg' i hi
            rcases hd2 with ⟨k0, its⟩
            by_cases hk : k0 = k
            · simp only [upsertGroup, hk, if_true] at hkg'
              rcases List.mem_cons.mp hkg' with rfl | hkg''
              · rcases List.mem_append.mp hi with h1 | h1
                · exact Or.inl ⟨(k0, its), by simp [hk], h1⟩
                · simp only [List.mem_singleton] at h1
                  exact Or.inr h1
              · exact Or.inl ⟨kg', List.mem_cons_of_mem _ hkg'', hi⟩
            · simp only [upsertGroup, hk, if_false] at hkg'
              rcases List.mem_cons.mp hkg' with rfl | hkg''
              · exact Or.inl ⟨(k0, its), by simp, hi⟩
              · rcases ih k x kg' hkg'' i hi with ⟨kg'', h2, h3⟩ | h2
                · exact Or.inl ⟨kg'', List.mem_cons_of_mem _ h2, h3⟩
                · exact Or.inr h2
        rcases hup st.groups _ _ kg hkg it hit with ⟨kg'', h2, h3⟩ | h2
        · exact hst kg'' h2 it h3 hsz
        · subst h2
          exact processEntry_size_nonneg cfg fs src meta hsz

/-- All items of all groups. -/
def groupsItems (groups : List (Chars × List GItem)) : List GItem :=
  groups.foldr (fun kg acc => kg.2 ++ acc) []

/-- Every planned operation of the whole run comes from a valid item of
some group, via `planKeep`'s naming scheme. -/
theorem planAll_ops_from (cfg : Config) (fs : FS) :
    ∀ (groups : List (Chars × List GItem)) (acc : PlanResult),
      ∀ op ∈ (groups.foldl (planAllStep cfg fs) acc).ops,
        op ∈ acc.ops ∨ ∃ kg ∈ groups, ∃ it ∈ kg.2, 0 ≤ it.size ∧
          op.src = it.src ∧
          op.action = (if cfg.move then OpAction.move else OpAction.copy) ∧
          ∃ uc, op.dest_abs = keepDest cfg fs uc it
  | [], acc, op, hop => Or.inl hop
  | kg :: rest, acc, op, hop => by
    rw [List.foldl_cons] at hop
    rcases planAll_ops_from cfg fs rest _ op hop with hacc | ⟨kg', h1, h2⟩
    · have hops : (planAllStep cfg fs acc kg).ops =
          acc.ops ++ (planGroup cfg fs kg.2).1.ops := rfl
      rw [hops] at hacc
      rcases List.mem_append.mp hacc with h1 | h1
      · exact Or.inl h1
      · right
        obtain ⟨newOps, _, hops2, _, _, hsrc2, _⟩ :=
          foldl_plan_mono cfg fs (kg.2.filter (fun i => 0 ≤ i.size)).length
            (kg.2.filter (fun i => 0 ≤ i.size)) initGState
        have : (planGroup cfg fs kg.2).1.ops = newOps := by
          unfold planGroup
          rw [hops2]
          rfl
        rw [this] at h1
        obtain ⟨it, hit, uc, ha, hb, hc2, _, he⟩ := hsrc2 op h1
        have hit2 := List.mem_filter.mp hit
        exact ⟨kg, by simp, it, hit2.1, by simpa using hit2.2, ha, he, uc, hc2⟩
    · exact Or.inr ⟨kg', List.mem_cons_of_mem _ h1, h2⟩

/-! ### Claim C8 — missing sources -/

/-- **C8 (counterexample).** A run whose only mapping entry points at a
missing source completes, records the source as missing and plans nothing
for it — but the source appears *nowhere* in the structured report (whose
groups are empty), and its entry still occupies a placement group (the
unique-destinations count is 1), so it is neither "surfaced in the final
report" nor "excluded from grouping entirely". -/
theorem missing_source_absent_from_report :
    (runMain exCfgDry [] [(S "/m/gone.mp3", some exMeta)] (S "T")).missing =
      [S "/m/gone.mp3"] ∧
    (runMain exCfgDry [] [(S "/m/gone.mp3", some exMeta)] (S "T")).plan.ops = [] ∧
    (runMain exCfgDry [] [(S "/m/gone.mp3", some exMeta)] (S "T")).aborted = false ∧
    ((runMain exCfgDry [] [(S "/m/gone.mp3", some exMeta)] (S "T")).report.map
      Report.groups) = some [] ∧
    (runMain exCfgDry [] [(S "/m/gone.mp3", some exMeta)] (S "T")).groupCount = 1 ∧
    (runMain exCfgDry [] [(S "/m/gone.mp3", some exMeta)] (S "T")).missingListing =
      [S "/m/gone.mp3"] := by
  refine ⟨by decide, by decide, by decide, by decide, by decide, by decide⟩

/-- **C8 (amended).** A mapping entry whose source cannot be statted never
fails the run: it is recorded as a missing source, excluded from planning
entirely (no operation is planned for it), and listed in the console
missing-sources listing (which shows the first 50 missing paths); in
dry-run mode the run completes and still writes the structured report
(which itself does not mention missing sources). -/
theorem missing_source_semantics (cfg : Config) (fs : FS) (mapping : Mapping)
    (src : Chars) (meta : Meta) (now : Chars)
    (hmem : (src, some meta) ∈ mapping)
    (hdollar : src.head? ≠ some '$')
    (hread : FS.read fs src = none) :
    src ∈ (runMain cfg fs mapping now).missing ∧
    (∀ op ∈ (runMain cfg fs mapping now).plan.ops, op.src ≠ src) ∧
    (runMain cfg fs mapping now).missingListing =
      (runMain cfg fs mapping now).missing.take 50 ∧
    (cfg.apply = false → (runMain cfg fs mapping now).aborted = false ∧
      (runMain cfg fs mapping now).report ≠ none) := by
  refine ⟨?_, ?_, rfl, ?_⟩
  · exact groupEntries_missing_mem cfg fs mapping ⟨[], [], 0⟩ src meta hmem
      hdollar hread
  · intro op hop he
    have hfrom := planAll_ops_from cfg fs
      (groupEntries cfg fs mapping).groups ⟨[], [], 0, 0, 0, 0, 0, 0, []⟩ op hop
    rcases hfrom with h1 | ⟨kg, hkg, it, hit, hsz, hsrc, _⟩
    · simp at h1
    · have hreadable := groupEntries_items_readable cfg fs mapping ⟨[], [], 0⟩
        (by intro kg hkg; simp at hkg) kg hkg it hit hsz
      rw [← hsrc, he, hread] at hreadable
      simp at hreadable
  · intro happ
    constructor
    · simp [runMain, happ]
    · simp [runMain, happ]

/-- Witness for `missing_source_semantics`. -/
theorem missing_source_semantics_witness :
    (S "/m/gone.mp3") ∈ (runMain exCfgDry []
      [(S "/m/gone.mp3", some exMeta)] (S "T")).missing ∧
    (∀ op ∈ (runMain exCfgDry [] [(S "/m/gone.mp3", some exMeta)]
      (S "T")).plan.ops, op.src ≠ S "/m/gone.mp3") ∧
    (runMain exCfgDry [] [(S "/m/gone.mp3", some exMeta)] (S "T")).missingListing =
      (runMain exCfgDry [] [(S "/m/gone.mp3", some exMeta)] (S "T")).missing.take 50 ∧
    (exCfgDry.apply = false →
      (runMain exCfgDry [] [(S "/m/gone.mp3", some exMeta)] (S "T")).aborted = false ∧
      (runMain exCfgDry [] [(S "/m/gone.mp3", some exMeta)] (S "T")).report ≠ none) :=
  missing_source_semantics exCfgDry [] [(S "/m/gone.mp3", some exMeta)]
    (S "/m/gone.mp3") exMeta (S "T") (by decide) (by decide) (by decide)

/-! ### Claim C3 — no-overwrite -/

/-- **C3 (counterexample).** An apply-mode (copy) run *deletes* a file
that existed before the run: the pre-existing file at the temporary
sibling path `dest + ".incoming"` is removed by the copy step. -/
theorem preexisting_incoming_file_deleted :
    FS.read [(S "/m/x.mp3", [1, 2]),
        (S "/out/Art/Alb/Song.mp3.incoming", [9])]
      (S "/out/Art/Alb/Song.mp3.incoming") = some [9] ∧
    FS.read (runMain exCfg [(S "/m/x.mp3", [1, 2]),
        (S "/out/Art/Alb/Song.mp3.incoming", [9])]
      [(S "/m/x.mp3", some exMeta)] (S "T")).fsAfter
      (S "/out/Art/Alb/Song.mp3.incoming") = none := by
  refine ⟨by decide, by decide⟩

/-- **C3 (amended).** In copy mode, every planned destination was computed
to not exist at resolution time, and no file that existed before the run
is truncated, replaced or deleted — *except* possibly a pre-existing file
sitting at a planned operation's temporary sibling path
`dest + ".incoming"`, which the copy step deletes (and, in move mode,
sources are removed by design). -/
theorem copy_apply_preserves_preexisting (cfg : Config) (fs : FS)
    (mapping : Mapping) (now p : Chars) (c : Content)
    (hmove : cfg.move = false)
    (htemp : ∀ op ∈ (runMain cfg fs mapping now).plan.ops,
      op.dest_abs ++ S ".incoming" ≠ p)
    (hp : FS.read fs p = some c) :
    FS.read (runMain cfg fs mapping now).fsAfter p = some c ∧
    (∀ op ∈ (runMain cfg fs mapping now).plan.ops,
      FS.pathExists fs op.dest_abs = false) := by
  have hfrom := planAll_ops_from cfg fs (groupEntries cfg fs mapping).groups
    ⟨[], [], 0, 0, 0, 0, 0, 0, []⟩
  have hprops : ∀ op ∈ (runMain cfg fs mapping now).plan.ops,
      op.action = OpAction.copy ∧ FS.pathExists fs op.dest_abs = false := by
    intro op hop
    rcases hfrom op hop with h1 | ⟨_, _, it, _, _, _, hact, uc, hdest⟩
    · simp at h1
    · constructor
      · rw [hact, hmove]
        rfl
      · rw [hdest]
        exact uniqueDest_not_exists fs (assignCandidate cfg uc it)
  refine ⟨?_, fun op hop => (hprops op hop).2⟩
  have hdne : ∀ op ∈ (runMain cfg fs mapping now).plan.ops,
      op.dest_abs ≠ p := by
    intro op hop he
    have h2 := (hprops op hop).2
    rw [he] at h2
    simp only [FS.pathExists, hp] at h2
    simp at h2
  show FS.read (if cfg.apply then
      applyOps fs (runMain cfg fs mapping now).plan.ops
    else (fs, false)).1 p = some c
  by_cases happ : cfg.apply
  · simp only [happ, if_true]
    rw [applyOps_copy_untouched p _ fs
      (fun op hop => (hprops op hop).1) hdne htemp]
    exact hp
  · simp only [happ, if_false]
    exact hp

/-- Witness for `copy_apply_preserves_preexisting`: a pre-existing
unrelated file survives an apply-mode copy run untouched. -/
theorem copy_apply_preserves_preexisting_witness :
    FS.read (runMain exCfg [(S "/m/x.mp3", [1, 2]), (S "/keep.txt", [7])]
      [(S "/m/x.mp3", some exMeta)] (S "T")).fsAfter (S "/keep.txt") = some [7] ∧
    (∀ op ∈ (runMain exCfg [(S "/m/x.mp3", [1, 2]), (S "/keep.txt", [7])]
      [(S "/m/x.mp3", some exMeta)] (S "T")).plan.ops,
      FS.pathExists [(S "/m/x.mp3", [1, 2]), (S "/keep.txt", [7])]
        op.dest_abs = false) :=
  copy_apply_preserves_preexisting exCfg
    [(S "/m/x.mp3", [1, 2]), (S "/keep.txt", [7])]
    [(S "/m/x.mp3", some exMeta)] (S "T") (S "/keep.txt") [7]
    rfl (by decide) (by decide)

/-! ### Claim C6 — already in place -/

/-- The already-in-place counter never decreases along the group fold. -/
theorem foldl_aip_mono (cfg : Config) (fs : FS) (vlen : Nat) :
    ∀ (items : List GItem) (st : GState),
      st.alreadyInPlace ≤
        (items.foldl (planGroupStep cfg fs vlen) st).alreadyInPlace
  | [], _ => Nat.le_refl _
  | it :: rest, st => by
    rw [List.foldl_cons]
    refine Nat.le_trans ?_ (foldl_aip_mono cfg fs vlen rest _)
    cases hc : compute_file_hash fs it.src with
    | some c =>
      by_cases hmem : c ∈ st.seen
      · rw [planGroupStep_skip cfg fs vlen st it c hc hmem]
      · rw [planGroupStep_keep_new cfg fs vlen st it c hc hmem]
        set st' : GState :=
          { st with hashed := st.hashed ++ [it.src], seen := st.seen ++ [c] }
        have hk := (planKeep_spec cfg fs vlen st' it).2.2.2.2.2
        by_cases hip : abspath cfg.cwd it.src =
            abspath cfg.cwd (keepDest cfg fs (st'.uniqueCount + 1) it)
        · rw [if_pos hip] at hk
          rw [hk.2]
          have h2 : st'.alreadyInPlace = st.alreadyInPlace := rfl
          omega
        · rw [if_neg hip] at hk
          rw [hk.2]
    | none =>
      rw [planGroupStep_keep_none cfg fs vlen st it hc]
      set st' : GState := { st with hashed := st.hashed ++ [it.src] }
      have hk := (planKeep_spec cfg fs vlen st' it).2.2.2.2.2
      by_cases hip : abspath cfg.cwd it.src =
          abspath cfg.cwd (keepDest cfg fs (st'.uniqueCount + 1) it)
      · rw [if_pos hip] at hk
        rw [hk.2]
        have h2 : st'.alreadyInPlace = st.alreadyInPlace := rfl
        omega
      · rw [if_neg hip] at hk
        rw [hk.2]

/-- **C6.** A kept source whose resolved absolute destination equals its
own absolute source path is counted as already in place; no operation is
added to the plan for it (hence the executor never copies or moves it);
and it is hashed exactly once — never re-hashed. -/
theorem already_in_place_semantics (cfg : Config) (fs : FS)
    (items pre post : List GItem) (it : GItem)
    (hdecomp : items.filter (fun i => 0 ≤ i.size) = pre ++ it :: post)
    (hkept : ∀ c, compute_file_hash fs it.src = some c →
      c ∉ (dedupState fs pre ([], 0)).1)
    (hip : abspath cfg.cwd it.src =
      abspath cfg.cwd (keepDest cfg fs ((dedupState fs pre ([], 0)).2 + 1) it))
    (hnodup : ((items.filter (fun i => 0 ≤ i.size)).map GItem.src).Nodup) :
    1 ≤ (planGroup cfg fs items).1.alreadyInPlace ∧
    (∀ op ∈ (planGroup cfg fs items).1.ops, op.src ≠ it.src) ∧
    (planGroup cfg fs items).1.hashed.count it.src = 1 := by
  have hpg : (planGroup cfg fs items).1 =
      (items.filter (fun i => 0 ≤ i.size)).foldl
        (planGroupStep cfg fs (items.filter (fun i => 0 ≤ i.size)).length)
        initGState := rfl
  set vlen := (items.filter (fun i => 0 ≤ i.size)).length with hvlen
  set valid := items.filter (fun i => 0 ≤ i.size) with hvalid
  rw [hpg, hdecomp, List.foldl_append, List.foldl_cons]
  set st1 := pre.foldl (planGroupStep cfg fs vlen) initGState with hst1
  have hsu := foldl_seen_uc cfg fs vlen pre initGState
  have hseen1 : st1.seen = (dedupState fs pre ([], 0)).1 :=
    congrArg Prod.fst hsu
  have huc1 : st1.uniqueCount = (dedupState fs pre ([], 0)).2 :=
    congrArg Prod.snd hsu
  -- the step on `it` goes through `planKeep` in the in-place branch
  have hstep : ∃ st', planGroupStep cfg fs vlen st1 it = planKeep cfg fs vlen st' it ∧
      st'.uniqueCount = st1.uniqueCount ∧ st'.ops = st1.ops ∧
      st'.alreadyInPlace = st1.alreadyInPlace ∧
      st'.hashed = st1.hashed ++ [it.src] := by
    cases hc : compute_file_hash fs it.src with
    | some c =>
      have hmem : c ∉ st1.seen := by
        rw [hseen1]
        exact hkept c hc
      exact ⟨_, planGroupStep_keep_new cfg fs vlen st1 it c hc hmem,
        rfl, rfl, rfl, rfl⟩
    | none =>
      exact ⟨_, planGroupStep_keep_none cfg fs vlen st1 it hc, rfl, rfl, rfl, rfl⟩
  obtain ⟨st', hst', huc', hops', haip', hhash'⟩ := hstep
  rw [hst']
  have hk := (planKeep_spec cfg fs vlen st' it).2.2.2.2.2
  have hipmatch : abspath cfg.cwd it.src =
      abspath cfg.cwd (keepDest cfg fs (st'.uniqueCount + 1) it) := by
    rw [huc', huc1]
    exact hip
  rw [if_pos hipmatch] at hk
  set st2 := planKeep cfg fs vlen st' it with hst2
  have hops2 : st2.ops = st1.ops := by rw [hk.1, hops']
  have haip2 : st2.alreadyInPlace = st1.alreadyInPlace + 1 := by
    rw [hk.2, haip']
  have hhash2 : st2.hashed = st1.hashed ++ [it.src] := by
    rw [(planKeep_spec cfg fs vlen st' it).2.2.1, hhash']
  -- source lists of pre and post are disjoint from it.src
  have hnodup2 : (pre.map GItem.src ++ it.src :: post.map GItem.src).Nodup := by
    have hmap : valid.map GItem.src =
        pre.map GItem.src ++ it.src :: post.map GItem.src := by
      rw [hdecomp]
      simp
    rw [hmap] at hnodup
    exact hnodup
  have hpre_nmem : it.src ∉ pre.map GItem.src := by
    rw [List.nodup_append] at hnodup2
    intro h
    exact hnodup2.2.2 h (by simp)
  have hpost_nmem : it.src ∉ post.map GItem.src := by
    rw [List.nodup_append] at hnodup2
    have h2 := hnodup2.2.1
    rw [List.nodup_cons] at h2
    exact h2.1
  obtain ⟨preOps, preRep, hops_pre, _, hhash_pre, hsrc_pre, _⟩ :=
    foldl_plan_mono cfg fs vlen pre initGState
  obtain ⟨postOps, postRep, hops_post, _, hhash_post, hsrc_post, _⟩ :=
    foldl_plan_mono cfg fs vlen post st2
  refine ⟨?_, ?_, ?_⟩
  · have hmono := foldl_aip_mono cfg fs vlen post st2
    rw [haip2] at hmono
    omega
  · intro op hop he
    rw [hops_post] at hop
    rcases List.mem_append.mp hop with h1 | h1
    · rw [hops2, hst1, hops_pre] at h1
      have h1p : op ∈ preOps := by simpa [initGState] using h1
      obtain ⟨it', hit', _, hsrceq, _⟩ := hsrc_pre op h1p
      exact hpre_nmem (by
        rw [← he, hsrceq]
        exact List.mem_map_of_mem GItem.src hit')
    · obtain ⟨it', hit', _, hsrceq, _⟩ := hsrc_post op h1
      exact hpost_nmem (by
        rw [← he, hsrceq]
        exact List.mem_map_of_mem GItem.src hit')
  · rw [hhash_post, hhash2, hst1, hhash_pre]
    simp only [initGState, List.nil_append]
    rw [List.count_append, List.count_append]
    rw [List.count_eq_zero_of_not_mem hpre_nmem,
      List.count_eq_zero_of_not_mem hpost_nmem]
    simp

/-- A configuration whose destination root is the absolute form of the
directory the (relative) source paths live under, so that a rendered
destination can resolve to the source's own absolute path. -/
def ipCfg : Config := { exCfg with dest_root := S "/cwd/out", cwd := S "/cwd" }

/-- A grouped entry already organized at its rendered destination:
the relative source `out/Art/Alb/Song.mp3` resolves to the absolute path
`/cwd/out/Art/Alb/Song.mp3`, which is exactly where the pattern places it. -/
def ipItem : GItem :=
  { src := S "out/Art/Alb/Song.mp3"
    size := 2
    author_s := S "Art"
    album_s := S "Alb"
    song_s := S "Song"
    ext := S ".mp3"
    dest_rel_base := S "Art/Alb/Song.mp3" }

/-- The filesystem holding only that already-organized source file. -/
def ipFS : FS := [(S "out/Art/Alb/Song.mp3", [1, 2])]

/-- **C6 (witness).** Concrete instance of `already_in_place_semantics`:
a single-item group whose source already sits at its resolved destination
is counted as in place, yields no operation, and is hashed exactly once. -/
theorem already_in_place_semantics_witness :
    1 ≤ (planGroup ipCfg ipFS [ipItem]).1.alreadyInPlace ∧
    (∀ op ∈ (planGroup ipCfg ipFS [ipItem]).1.ops, op.src ≠ ipItem.src) ∧
    (planGroup ipCfg ipFS [ipItem]).1.hashed.count ipItem.src = 1 :=
  already_in_place_semantics ipCfg ipFS [ipItem] [] [] ipItem
    (by decide) (fun c _ => List.not_mem_nil c) (by decide) (by decide)

/-! ### Claim C2 — duplicate naming -/

/-- The amended claim's formula for the 2nd-and-later distinct-content
candidate name: base stem, then the **sanitized** duplicate token, then the
sanitized source stem, then the extension.  (Stated from the amended
claim's words, to be compared with `assignCandidate` from the source.) -/
def spec_dup_candidate (cfg : Config) (it : GItem) : Chars :=
  joinPath (pathDirname (joinPath cfg.dest_root it.dest_rel_base))
    ((pathSplitExt (pathBasename (joinPath cfg.dest_root it.dest_rel_base))).1
      ++ sanitize_component cfg.duplicate_token
      ++ sanitize_component (pathSplitExt (pathBasename it.src)).1
      ++ (pathSplitExt (pathBasename (joinPath cfg.dest_root it.dest_rel_base))).2)

/-- The original claim's formula for the same name: the **raw** duplicate
token spliced in unsanitized.  (Stated from the claim's words, to be
compared with `assignCandidate` from the source.) -/
def spec_dup_candidate_raw (cfg : Config) (it : GItem) : Chars :=
  joinPath (pathDirname (joinPath cfg.dest_root it.dest_rel_base))
    ((pathSplitExt (pathBasename (joinPath cfg.dest_root it.dest_rel_base))).1
      ++ cfg.duplicate_token
      ++ sanitize_component (pathSplitExt (pathBasename it.src)).1
      ++ (pathSplitExt (pathBasename (joinPath cfg.dest_root it.dest_rel_base))).2)

/-- A configuration whose duplicate token contains a path separator, so
that sanitization visibly changes it. -/
def tokCfg : Config := { exCfg with duplicate_token := S "a/b" }

/-- First grouped entry of the duplicate-token scenario. -/
def tokItem1 : GItem :=
  { src := S "/m/x.mp3"
    size := 1
    author_s := S "Art"
    album_s := S "Alb"
    song_s := S "Song"
    ext := S ".mp3"
    dest_rel_base := S "Art/Alb/Song.mp3" }

/-- Second grouped entry, same rendered destination, different content. -/
def tokItem2 : GItem :=
  { src := S "/m/y.mp3"
    size := 1
    author_s := S "Art"
    album_s := S "Alb"
    song_s := S "Song"
    ext := S ".mp3"
    dest_rel_base := S "Art/Alb/Song.mp3" }

/-- Filesystem for the duplicate-token scenario: two sources with
different contents, no pre-existing destinations. -/
def tokFS : FS := [(S "/m/x.mp3", [1]), (S "/m/y.mp3", [2])]

/-- C2 counterexample: with duplicate token `"a/b"`, the second distinct
content is planned at `.../Songa-by.mp3` — the token is sanitized to
`"a-b"` first — and not at the raw-token name `.../Songa/by.mp3` the claim
prescribes. -/
theorem duplicate_token_is_sanitized :
    ((planGroup tokCfg tokFS [tokItem1, tokItem2]).1.ops.map
        (fun o : Op => o.dest_abs)) =
      [S "/out/Art/Alb/Song.mp3", S "/out/Art/Alb/Songa-by.mp3"] ∧
    spec_dup_candidate tokCfg tokItem2 = S "/out/Art/Alb/Songa-by.mp3" ∧
    spec_dup_candidate_raw tokCfg tokItem2 = S "/out/Art/Alb/Songa/by.mp3" ∧
    spec_dup_candidate_raw tokCfg tokItem2 ≠ spec_dup_candidate tokCfg tokItem2 := by
  decide

/-- C2 (amended): the first distinct content keeps the group's base
rendered path; the `uc`-th distinct content for `uc ≥ 2` gets the stem
`base_stem ++ sanitized duplicate token ++ sanitized source stem ++ ext`;
and for every distinct content the numeric suffix `_n` is appended exactly
when the candidate already exists, incrementing from the smallest free
index (`n = 1`, i.e. no suffix, iff the candidate itself is free). -/
theorem duplicate_naming_semantics (cfg : Config) (fs : FS) (uc : Nat)
    (it : GItem) (huc : 1 ≤ uc) :
    assignCandidate cfg 1 it = joinPath cfg.dest_root it.dest_rel_base ∧
    (2 ≤ uc → assignCandidate cfg uc it = spec_dup_candidate cfg it) ∧
    ∃ n, 1 ≤ n ∧
      keepDest cfg fs uc it =
        add_suffix_to_filename (assignCandidate cfg uc it) n ∧
      FS.pathExists fs (keepDest cfg fs uc it) = false ∧
      (∀ m, 1 ≤ m → m < n →
        FS.pathExists fs
          (add_suffix_to_filename (assignCandidate cfg uc it) m) = true) ∧
      (n = 1 ↔ FS.pathExists fs (assignCandidate cfg uc it) = false) := by
  refine ⟨by simp [assignCandidate], ?_, ?_⟩
  · intro h2
    have hne : uc ≠ 1 := by omega
    simp [assignCandidate, spec_dup_candidate, hne]
  · obtain ⟨h1, h2, h3, h4, h5⟩ :=
      compute_unique_destination_spec fs (assignCandidate cfg uc it)
    exact ⟨(compute_unique_destination fs (assignCandidate cfg uc it) 1).2,
      h2, h1, h3, h4, h5⟩

/-- C2 witness: the amended naming property evaluated on the concrete
duplicate-token scenario at `uc = 2`. -/
theorem duplicate_naming_semantics_witness :
    1 ≤ 2 ∧
    (assignCandidate tokCfg 1 tokItem2 =
        joinPath tokCfg.dest_root tokItem2.dest_rel_base ∧
      (2 ≤ 2 → assignCandidate tokCfg 2 tokItem2 = spec_dup_candidate tokCfg tokItem2) ∧
      ∃ n, 1 ≤ n ∧
        keepDest tokCfg tokFS 2 tokItem2 =
          add_suffix_to_filename (assignCandidate tokCfg 2 tokItem2) n ∧
        FS.pathExists tokFS (keepDest tokCfg tokFS 2 tokItem2) = false ∧
        (∀ m, 1 ≤ m → m < n →
          FS.pathExists tokFS
            (add_suffix_to_filename (assignCandidate tokCfg 2 tokItem2) m) = true) ∧
        (n = 1 ↔ FS.pathExists tokFS (assignCandidate tokCfg 2 tokItem2) = false)) :=
  ⟨by decide, duplicate_naming_semantics tokCfg tokFS 2 tokItem2 (by decide)⟩

/-! ### Claim C1 — content idempotence -/

/-- `dedupState` only ever appends fingerprints to the seen list. -/
theorem dedupState_seen_mono (fs : FS) :
    ∀ (l : List GItem) (s : List Content × Nat),
      ∃ ext, (dedupState fs l s).1 = s.1 ++ ext
  | [], s => ⟨[], by simp [dedupState]⟩
  | it :: rest, s => by
    cases hc : compute_file_hash fs it.src with
    | some c =>
      by_cases hmem : c ∈ s.1
      · have h := dedupState_seen_mono fs rest s
        simpa [dedupState, hc, hmem] using h
      · obtain ⟨ext, hext⟩ := dedupState_seen_mono fs rest (s.1 ++ [c], s.2 + 1)
        refine ⟨[c] ++ ext, ?_⟩
        simp only [dedupState, hc, hmem, if_false]
        rw [hext]
        simp
    | none =>
      have h := dedupState_seen_mono fs rest (s.1, s.2 + 1)
      simpa [dedupState, hc] using h

/-- If a `filterMap` image is duplicate-free, two list elements mapping to
the same `some c` coincide. -/
theorem filterMap_nodup_unique {α β : Type} (f : α → Option β) (l : List α)
    (hnd : (l.filterMap f).Nodup) (a b : α) (c : β)
    (ha : a ∈ l) (hb : b ∈ l)
    (hfa : f a = some c) (hfb : f b = some c) : a = b := by
  by_contra hab
  obtain ⟨s, t, rfl⟩ := List.append_of_mem ha
  rw [List.filterMap_append, List.filterMap_cons_some hfa] at hnd
  rw [List.nodup_append] at hnd
  rcases List.mem_append.mp hb with hbs | hbt
  · have hmem : c ∈ s.filterMap f := List.mem_filterMap.mpr ⟨b, hbs, hfb⟩
    exact hnd.2.2 hmem (by simp)
  · rcases List.mem_cons.mp hbt with rfl | hbt2
    · exact hab rfl
    · have hmem : c ∈ t.filterMap f := List.mem_filterMap.mpr ⟨b, hbt2, hfb⟩
      have h2 := hnd.2.1
      rw [List.nodup_cons] at h2
      exact h2.1 hmem

/-- Two distinct list elements that both map to `some c` make the count of
`c` in the `filterMap` at least two. -/
theorem two_le_count_filterMap {α β : Type} [DecidableEq β]
    (f : α → Option β) (l : List α) (a b : α) (c : β)
    (ha : a ∈ l) (hb : b ∈ l) (hab : a ≠ b)
    (hfa : f a = some c) (hfb : f b = some c) :
    2 ≤ (l.filterMap f).count c := by
  obtain ⟨s, t, rfl⟩ := List.append_of_mem ha
  rw [List.filterMap_append, List.count_append]
  rcases List.mem_append.mp hb with hbs | hbt
  · have hmem : c ∈ s.filterMap f := List.mem_filterMap.mpr ⟨b, hbs, hfb⟩
    have h1 : (s.filterMap f).count c ≠ 0 := by
      intro h0
      exact (List.count_eq_zero.mp h0) hmem
    have h2 : ((a :: t).filterMap f).count c =
        (t.filterMap f).count c + 1 := by
      rw [List.filterMap_cons_some hfa, List.count_cons_self]
    omega
  · rcases List.mem_cons.mp hbt with rfl | hbt'
    · exact absurd rfl hab
    · have hmem : c ∈ t.filterMap f := List.mem_filterMap.mpr ⟨b, hbt', hfb⟩
      have h1 : (t.filterMap f).count c ≠ 0 := by
        intro h0
        exact (List.count_eq_zero.mp h0) hmem
      have h2 : ((a :: t).filterMap f).count c =
          (t.filterMap f).count c + 1 := by
        rw [List.filterMap_cons_some hfa, List.count_cons_self]
      omega

/-- **C1.** Within a placement group, when a later valid source (`it2`)
has byte-identical content `c` to an earlier valid source (`it1`) that
introduced `c`, the planner plans `it1` with a destination (a `planned`
report entry and, when not already in place, an operation to the assigned
unique destination), marks `it2` skipped-identical with no destination and
no operation; and an apply run in copy mode completes without aborting,
places content `c` at `it1`'s destination, and at no other planned
destination. -/
theorem content_idempotence (cfg : Config) (fs : FS)
    (items pre mid post : List GItem) (it1 it2 : GItem) (c : Content)
    (hdecomp : items.filter (fun i => 0 ≤ i.size) =
      pre ++ it1 :: mid ++ it2 :: post)
    (hc1 : compute_file_hash fs it1.src = some c)
    (hc2 : compute_file_hash fs it2.src = some c)
    (hfirst : c ∉ (dedupState fs pre ([], 0)).1)
    (hnodupSrc : ((items.filter (fun i => 0 ≤ i.size)).map GItem.src).Nodup)
    (hnip : ¬ (abspath cfg.cwd it1.src =
      abspath cfg.cwd (keepDest cfg fs ((dedupState fs pre ([], 0)).2 + 1) it1)))
    (hcopy : cfg.move = false)
    (hreadable : ∀ op ∈ (planGroup cfg fs items).1.ops, (FS.read fs op.src).isSome)
    (htfresh : ∀ op ∈ (planGroup cfg fs items).1.ops,
      FS.pathExists fs (op.dest_abs ++ S ".incoming") = false)
    (hnodupDest : ((planGroup cfg fs items).1.ops.map
      (fun o : Op => o.dest_abs)).Nodup)
    (htd : ∀ op ∈ (planGroup cfg fs items).1.ops,
      ∀ op' ∈ (planGroup cfg fs items).1.ops,
      op.dest_abs ++ S ".incoming" ≠ op'.dest_abs) :
    RepEntry.planned it1.src
      (relpath cfg.cwd (keepDest cfg fs ((dedupState fs pre ([], 0)).2 + 1) it1)
        cfg.dest_root) ∈ (planGroup cfg fs items).1.rep ∧
    (∃ op ∈ (planGroup cfg fs items).1.ops, op.src = it1.src ∧
      op.dest_abs = keepDest cfg fs ((dedupState fs pre ([], 0)).2 + 1) it1) ∧
    RepEntry.skipped it2.src ∈ (planGroup cfg fs items).1.rep ∧
    (∀ e ∈ (planGroup cfg fs items).1.rep, repSrc e = it2.src →
      e = RepEntry.skipped it2.src) ∧
    (∀ op ∈ (planGroup cfg fs items).1.ops, op.src ≠ it2.src) ∧
    (applyOps fs (planGroup cfg fs items).1.ops).2 = false ∧
    FS.read (applyOps fs (planGroup cfg fs items).1.ops).1
      (keepDest cfg fs ((dedupState fs pre ([], 0)).2 + 1) it1) = some c ∧
    (∀ op ∈ (planGroup cfg fs items).1.ops,
      op.dest_abs ≠ keepDest cfg fs ((dedupState fs pre ([], 0)).2 + 1) it1 →
      FS.read (applyOps fs (planGroup cfg fs items).1.ops).1 op.dest_abs ≠ some c) := by
  have hpg : (planGroup cfg fs items).1 =
      (items.filter (fun i => 0 ≤ i.size)).foldl
        (planGroupStep cfg fs (items.filter (fun i => 0 ≤ i.size)).length)
        initGState := rfl
  set vlen := (items.filter (fun i => 0 ≤ i.size)).length with hvlen
  set valid := items.filter (fun i => 0 ≤ i.size) with hvalid
  have h1v : 1 < vlen := by
    rw [hvlen, hdecomp]
    simp only [List.length_append, List.length_cons]
    omega
  have hfin : (planGroup cfg fs items).1 =
      post.foldl (planGroupStep cfg fs vlen)
        (planGroupStep cfg fs vlen
          (mid.foldl (planGroupStep cfg fs vlen)
            (planGroupStep cfg fs vlen
              (pre.foldl (planGroupStep cfg fs vlen) initGState) it1)) it2) := by
    rw [hpg, hdecomp, List.foldl_append, List.foldl_cons, List.foldl_append,
      List.foldl_cons]
  set st0 := pre.foldl (planGroupStep cfg fs vlen) initGState with hst0
  set st1 := planGroupStep cfg fs vlen st0 it1 with hst1
  set st2 := mid.foldl (planGroupStep cfg fs vlen) st1 with hst2
  set st3 := planGroupStep cfg fs vlen st2 it2 with hst3
  rw [hfin] at hreadable htfresh hnodupDest htd ⊢
  -- state after the prefix
  have hsu0 := foldl_seen_uc cfg fs vlen pre initGState
  have hseen0 : st0.seen = (dedupState fs pre ([], 0)).1 := congrArg Prod.fst hsu0
  have huc0 : st0.uniqueCount = (dedupState fs pre ([], 0)).2 := congrArg Prod.snd hsu0
  -- the step on `it1` keeps it with a fresh destination
  have hmem1 : c ∉ st0.seen := by
    rw [hseen0]
    exact hfirst
  set st0' : GState :=
    { st0 with hashed := st0.hashed ++ [it1.src], seen := st0.seen ++ [c] } with hst0'
  have hstep1 : st1 = planKeep cfg fs vlen st0' it1 := by
    rw [hst1, hst0']
    exact planGroupStep_keep_new cfg fs vlen st0 it1 c hc1 hmem1
  have hk1 := planKeep_spec cfg fs vlen st0' it1
  have huc0' : st0'.uniqueCount = (dedupState fs pre ([], 0)).2 := huc0
  have hnip1 : ¬ (abspath cfg.cwd it1.src =
      abspath cfg.cwd (keepDest cfg fs (st0'.uniqueCount + 1) it1)) := by
    rw [huc0']
    exact hnip
  have hsplit1 := hk1.2.2.2.2.2
  rw [if_neg hnip1] at hsplit1
  rw [huc0'] at hsplit1
  have hrepk1 := hk1.2.2.2.2.1
  rw [if_pos h1v, huc0'] at hrepk1
  set op1 : Op :=
    { action := if cfg.move then OpAction.move else OpAction.copy
      src := it1.src
      dest_abs := keepDest cfg fs ((dedupState fs pre ([], 0)).2 + 1) it1
      dest_rel := relpath cfg.cwd
        (keepDest cfg fs ((dedupState fs pre ([], 0)).2 + 1) it1) cfg.dest_root
      size := it1.size } with hop1
  have hops1 : st1.ops = st0.ops ++ [op1] := by
    rw [hstep1]
    exact hsplit1.1
  have hrep1 : st1.rep = st0.rep ++ [RepEntry.planned it1.src
      (relpath cfg.cwd (keepDest cfg fs ((dedupState fs pre ([], 0)).2 + 1) it1)
        cfg.dest_root)] := by
    rw [hstep1]
    exact hrepk1
  have hseen1 : st1.seen = st0.seen ++ [c] := by
    rw [hstep1]
    exact hk1.1
  -- the fingerprint `c` is still seen when `it2` is processed
  have hsu2 := foldl_seen_uc cfg fs vlen mid st1
  rw [← hst2] at hsu2
  have hseen2 : st2.seen = (dedupState fs mid (st1.seen, st1.uniqueCount)).1 :=
    congrArg Prod.fst hsu2
  have hmem2 : c ∈ st2.seen := by
    rw [hseen2]
    obtain ⟨ext, hext⟩ := dedupState_seen_mono fs mid (st1.seen, st1.uniqueCount)
    rw [hext]
    apply List.mem_append_left
    show c ∈ st1.seen
    rw [hseen1]
    exact List.mem_append_right _ (by simp)
  -- the step on `it2` skips it
  have hstep3 : st3 = { st2 with
      hashed := st2.hashed ++ [it2.src]
      identicalSkipped := st2.identicalSkipped + 1
      rep := if 1 < vlen then st2.rep ++ [RepEntry.skipped it2.src]
        else st2.rep } := by
    rw [hst3]
    exact planGroupStep_skip cfg fs vlen st2 it2 c hc2 hmem2
  have hops3 : st3.ops = st2.ops := by rw [hstep3]
  have hrep3 : st3.rep = st2.rep ++ [RepEntry.skipped it2.src] := by
    rw [hstep3]
    simp [h1v]
  -- append-only decompositions of the surrounding folds
  obtain ⟨preOps, preRep, hops_pre, hrep_pre, _, hprov_pre, hreps_pre⟩ :=
    foldl_plan_mono cfg fs vlen pre initGState
  rw [← hst0] at hops_pre hrep_pre
  have hops0 : st0.ops = preOps := by
    rw [hops_pre]
    simp [initGState]
  have hrep0 : st0.rep = preRep := by
    rw [hrep_pre]
    simp [initGState]
  obtain ⟨midOps, midRep, hops_mid, hrep_mid, _, hprov_mid, hreps_mid⟩ :=
    foldl_plan_mono cfg fs vlen mid st1
  rw [← hst2] at hops_mid hrep_mid
  obtain ⟨postOps, postRep, hops_post, hrep_post, _, hprov_post, hreps_post⟩ :=
    foldl_plan_mono cfg fs vlen post st3
  have hOPS : (post.foldl (planGroupStep cfg fs vlen) st3).ops =
      preOps ++ op1 :: (midOps ++ postOps) := by
    rw [hops_post, hops3, hops_mid, hops1, hops0]
    simp
  have hREP : (post.foldl (planGroupStep cfg fs vlen) st3).rep =
      preRep ++ RepEntry.planned it1.src
        (relpath cfg.cwd (keepDest cfg fs ((dedupState fs pre ([], 0)).2 + 1) it1)
          cfg.dest_root) ::
        (midRep ++ RepEntry.skipped it2.src :: postRep) := by
    rw [hrep_post, hrep3, hrep_mid, hrep1, hrep0]
    simp
  -- distinctness of the valid sources
  have hmapd : valid.map GItem.src =
      (pre.map GItem.src ++ it1.src :: mid.map GItem.src) ++
        it2.src :: post.map GItem.src := by
    rw [hdecomp]
    simp
  rw [hmapd] at hnodupSrc
  rw [List.nodup_append] at hnodupSrc
  have hA : it2.src ∉ pre.map GItem.src ++ it1.src :: mid.map GItem.src := by
    intro h
    exact hnodupSrc.2.2 h (by simp)
  have hpost2 : it2.src ∉ post.map GItem.src := by
    have h2 := hnodupSrc.2.1
    rw [List.nodup_cons] at h2
    exact h2.1
  have hpre2 : it2.src ∉ pre.map GItem.src := fun h => hA (List.mem_append_left _ h)
  have hne12 : it1.src ≠ it2.src := fun h =>
    hA (List.mem_append_right _ (by simp [h]))
  have hmid2 : it2.src ∉ mid.map GItem.src := fun h =>
    hA (List.mem_append_right _ (by simp [h]))
  -- whole-plan provenance, for the executor's preconditions
  have hvfold : valid.foldl (planGroupStep cfg fs vlen) initGState =
      post.foldl (planGroupStep cfg fs vlen) st3 := hpg.symm.trans hfin
  obtain ⟨allOps, allRep, hops_all, _, _, hprov_all, _⟩ :=
    foldl_plan_mono cfg fs vlen valid initGState
  rw [hvfold] at hops_all
  have hall : (post.foldl (planGroupStep cfg fs vlen) st3).ops = allOps := by
    rw [hops_all]
    simp [initGState]
  have hact : ∀ op ∈ (post.foldl (planGroupStep cfg fs vlen) st3).ops,
      op.action = OpAction.copy := by
    intro op hop
    rw [hall] at hop
    obtain ⟨it, _, uc, _, _, _, _, hacteq⟩ := hprov_all op hop
    rw [hacteq, hcopy]
    rfl
  have hdfresh : ∀ op ∈ (post.foldl (planGroupStep cfg fs vlen) st3).ops,
      FS.pathExists fs op.dest_abs = false := by
    intro op hop
    rw [hall] at hop
    obtain ⟨it, _, uc, _, _, hdesteq, _, _⟩ := hprov_all op hop
    rw [hdesteq]
    exact uniqueDest_not_exists fs (assignCandidate cfg uc it)
  obtain ⟨habort, hfsuntouched, hdests⟩ :=
    applyOps_copy_run (post.foldl (planGroupStep cfg fs vlen) st3).ops fs
      hact hreadable hdfresh htfresh hnodupDest htd
  have hop1mem : op1 ∈ (post.foldl (planGroupStep cfg fs vlen) st3).ops := by
    rw [hOPS]
    simp
  -- planned operations carry pairwise distinct contents
  have hinv := foldl_contents_inv cfg fs vlen valid initGState
    (by simp [initGState]) (by simp [initGState, opContents])
  rw [hvfold] at hinv
  have hnodupContents :
      (opContents fs (post.foldl (planGroupStep cfg fs vlen) st3).ops).Nodup :=
    List.Nodup.sublist hinv.2 hinv.1
  refine ⟨?_, ?_, ?_, ?_, ?_, habort, ?_, ?_⟩
  · rw [hREP]
    simp
  · exact ⟨op1, hop1mem, rfl, rfl⟩
  · rw [hREP]
    simp
  · intro e he hesrc
    rw [hREP] at he
    rcases List.mem_append.mp he with h1 | h1
    · exact absurd (by rw [← hesrc]; exact hreps_pre e h1) hpre2
    · rcases List.mem_cons.mp h1 with rfl | h2
      · exact absurd hesrc hne12
      · rcases List.mem_append.mp h2 with h3 | h3
        · exact absurd (by rw [← hesrc]; exact hreps_mid e h3) hmid2
        · rcases List.mem_cons.mp h3 with rfl | h4
          · rfl
          · exact absurd (by rw [← hesrc]; exact hreps_post e h4) hpost2
  · intro op hop
    rw [hOPS] at hop
    rcases List.mem_append.mp hop with h1 | h1
    · obtain ⟨it, hit, uc, hsrceq, _⟩ := hprov_pre op h1
      intro he
      exact hpre2 (by rw [← he, hsrceq]; exact List.mem_map_of_mem GItem.src hit)
    · rcases List.mem_cons.mp h1 with rfl | h2
      · exact hne12
      · rcases List.mem_append.mp h2 with h3 | h3
        · obtain ⟨it, hit, uc, hsrceq, _⟩ := hprov_mid op h3
          intro he
          exact hmid2 (by rw [← he, hsrceq]; exact List.mem_map_of_mem GItem.src hit)
        · obtain ⟨it, hit, uc, hsrceq, _⟩ := hprov_post op h3
          intro he
          exact hpost2 (by rw [← he, hsrceq]; exact List.mem_map_of_mem GItem.src hit)
  · show FS.read (applyOps fs (post.foldl (planGroupStep cfg fs vlen) st3).ops).1
      op1.dest_abs = some c
    rw [hdests op1 hop1mem]
    exact hc1
  · intro op hop hne heq
    have h1 : FS.read fs op.src = some c := by
      rw [← hdests op hop]
      exact heq
    have h2 : FS.read fs op1.src = some c := hc1
    have heqop : op = op1 :=
      filterMap_nodup_unique (fun o : Op => FS.read fs o.src)
        (post.foldl (planGroupStep cfg fs vlen) st3).ops hnodupContents
        op op1 c hop hop1mem h1 h2
    exact hne (by rw [heqop, hop1])

/-- Filesystem with two byte-identical sources mapping to one rendered
destination. -/
def idFS : FS := [(S "/m/x.mp3", [1, 2]), (S "/m/y.mp3", [1, 2])]

/-- First grouped entry of the identical-content scenario. -/
def idItem1 : GItem :=
  { src := S "/m/x.mp3"
    size := 2
    author_s := S "Art"
    album_s := S "Alb"
    song_s := S "Song"
    ext := S ".mp3"
    dest_rel_base := S "Art/Alb/Song.mp3" }

/-- Second grouped entry: same rendered destination, identical content. -/
def idItem2 : GItem :=
  { src := S "/m/y.mp3"
    size := 2
    author_s := S "Art"
    album_s := S "Alb"
    song_s := S "Song"
    ext := S ".mp3"
    dest_rel_base := S "Art/Alb/Song.mp3" }

/-- C1 witness: the content-idempotence property evaluated on the concrete
two-identical-sources scenario. -/
theorem content_idempotence_witness :
    compute_file_hash idFS idItem1.src = some [1, 2] ∧
    compute_file_hash idFS idItem2.src = some [1, 2] ∧
    (RepEntry.planned idItem1.src
        (relpath exCfg.cwd
          (keepDest exCfg idFS ((dedupState idFS [] ([], 0)).2 + 1) idItem1)
          exCfg.dest_root) ∈ (planGroup exCfg idFS [idItem1, idItem2]).1.rep ∧
      (∃ op ∈ (planGroup exCfg idFS [idItem1, idItem2]).1.ops, op.src = idItem1.src ∧
        op.dest_abs = keepDest exCfg idFS ((dedupState idFS [] ([], 0)).2 + 1) idItem1) ∧
      RepEntry.skipped idItem2.src ∈ (planGroup exCfg idFS [idItem1, idItem2]).1.rep ∧
      (∀ e ∈ (planGroup exCfg idFS [idItem1, idItem2]).1.rep, repSrc e = idItem2.src →
        e = RepEntry.skipped idItem2.src) ∧
      (∀ op ∈ (planGroup exCfg idFS [idItem1, idItem2]).1.ops, op.src ≠ idItem2.src) ∧
      (applyOps idFS (planGroup exCfg idFS [idItem1, idItem2]).1.ops).2 = false ∧
      FS.read (applyOps idFS (planGroup exCfg idFS [idItem1, idItem2]).1.ops).1
        (keepDest exCfg idFS ((dedupState idFS [] ([], 0)).2 + 1) idItem1) = some [1, 2] ∧
      (∀ op ∈ (planGroup exCfg idFS [idItem1, idItem2]).1.ops,
        op.dest_abs ≠ keepDest exCfg idFS ((dedupState idFS [] ([], 0)).2 + 1) idItem1 →
        FS.read (applyOps idFS (planGroup exCfg idFS [idItem1, idItem2]).1.ops).1
          op.dest_abs ≠ some [1, 2])) :=
  ⟨by decide, by decide,
    content_idempotence exCfg idFS [idItem1, idItem2] [] [] [] idItem1 idItem2 [1, 2]
      (by decide) (by decide) (by decide) (by decide) (by decide) (by decide)
      (by decide) (by decide) (by decide) (by decide) (by decide)⟩

/-! ### Claim C9 — unknown-album elision in the renderer -/

/-- `replaceLoop` passes unchanged over a region that does not contain the
pattern's first character. -/
theorem replaceLoop_skip (p0 : Char) (pt rep : Chars) :
    ∀ (a : Chars) (f : Nat) (b : Chars), p0 ∉ a →
      replaceLoop (p0 :: pt) rep (a.length + f) (a ++ b) =
        a ++ replaceLoop (p0 :: pt) rep f b
  | [], f, b, _ => by simp
  | c :: a', f, b, hmem => by
    have hc : p0 ≠ c := fun he => hmem (by rw [he]; exact List.mem_cons_self c a')
    have hlen : (c :: a').length + f = (a'.length + f) + 1 := by
      simp [Nat.add_right_comm]
    rw [hlen, List.cons_append]
    have hpre : (p0 :: pt).isPrefixOf (c :: (a' ++ b)) = false := by
      rw [Bool.eq_false_iff]
      intro h
      rw [List.isPrefixOf_iff_prefix, List.cons_prefix_cons] at h
      exact hc h.1
    simp only [replaceLoop, hpre, Bool.false_eq_true, if_false]
    rw [replaceLoop_skip p0 pt rep a' f b (fun h => hmem (List.mem_cons_of_mem c h))]
    simp

/-- `str.replace` on a string whose prefix avoids the pattern's first
character only rewrites the remainder. -/
theorem replaceList_append_skip (pat rep a b : Chars) (hne : pat ≠ [])
    (hhead : ∀ p0 ∈ pat.head?, p0 ∉ a) :
    replaceList (a ++ b) pat rep = a ++ replaceLoop pat rep b.length b := by
  cases pat with
  | nil => exact absurd rfl hne
  | cons p0 pt =>
    unfold replaceList
    rw [if_neg (by simp), List.length_append]
    exact replaceLoop_skip p0 pt rep a b.length b (hhead p0 rfl)

/-- `str.replace` is the identity when the string avoids the pattern's
first character. -/
theorem replaceList_skip_all (pat rep s : Chars) (hne : pat ≠ [])
    (hhead : ∀ p0 ∈ pat.head?, p0 ∉ s) :
    replaceList s pat rep = s := by
  have h := replaceList_append_skip pat rep s [] hne hhead
  rw [List.append_nil] at h
  rw [h]
  cases pat with
  | nil => exact absurd rfl hne
  | cons p0 pt => simp [replaceLoop]

/-- `str.split` distributes over a separator-free prefix. -/
theorem splitSep_append (sep : Char) :
    ∀ (a : Chars) {b h t : _}, sep ∉ a → splitSep sep b = h :: t →
      splitSep sep (a ++ b) = (a ++ h) :: t
  | [], b, h, t, _, hb => by simpa using hb
  | c :: a', b, h, t, hmem, hb => by
    have hc : c ≠ sep := fun he => hmem (by rw [← he]; exact List.mem_cons_self c a')
    have ih := splitSep_append sep a' (fun hm => hmem (List.mem_cons_of_mem c hm)) hb
    show splitSep sep (c :: (a' ++ b)) = ((c :: a') ++ h) :: t
    simp only [splitSep, ih]
    rw [if_neg hc]
    simp

/-- `str.split` on a separator-free string is the singleton. -/
theorem splitSep_no_sep (sep : Char) (s : Chars) (hmem : sep ∉ s) :
    splitSep sep s = [s] := by
  have h := splitSep_append sep s hmem (show splitSep sep [] = [] :: [] from rfl)
  simpa using h

/-- A sanitized component is never empty, `"."`, or `".."`. -/
theorem sanitized_not_dots {l : Chars} (h : Sanitized l) :
    ¬(l = [] ∨ l = S "." ∨ l = S "..") := by
  obtain ⟨_, _, _, hlast, hne⟩ := h
  rintro (h1 | h1 | h1)
  · exact hne h1
  · subst h1
    exact hlast '.' rfl (Or.inr rfl)
  · subst h1
    exact hlast '.' rfl (Or.inr rfl)

/-- `'%'` stays absent under concatenation. -/
theorem pct_not_mem_append {a b : Chars} (ha : ('%' : Char) ∉ a)
    (hb : ('%' : Char) ∉ b) : ('%' : Char) ∉ a ++ b := by
  intro h
  rcases List.mem_append.mp h with h | h
  · exact ha h
  · exact hb h

/-- Transport a `head?` fact into the bounded-quantifier form used by the
replace lemmas. -/
theorem head_not_mem {pat a : Chars} {c : Char} (hp : pat.head? = some c)
    (h : c ∉ a) : ∀ p0 ∈ pat.head?, p0 ∉ a := by
  intro p0 hp0
  rw [hp] at hp0
  simp only [Option.mem_def, Option.some_inj] at hp0
  subst hp0
  exact h


/-- Stage 1 of `build_dest_rel_base`: the blanking of unknown placeholder
values (identical to the first `let` of the source function). -/
def blankReps (keep : Bool) (reps : List (Chars × Chars)) :
    List (Chars × Chars) :=
  if keep then reps
  else reps.map (fun kv => (kv.1, if is_unknown_text kv.2 then [] else kv.2))

/-- Stage 2: placeholder substitution. -/
def renderSub (reps : List (Chars × Chars)) (pattern : Chars) : Chars :=
  reps.foldl (fun acc kv => replaceList acc kv.1 kv.2) pattern

/-- Stage 3: split on `/` and drop empty and dot components. -/
def renderParts (sub : Chars) : List Chars :=
  (splitSep '/' sub).filter (fun p => ¬(p = [] ∨ p = S "." ∨ p = S ".."))

/-- Stage 4: sanitize, drop unknowns, trim punctuation. -/
def renderSafe (keep : Bool) (parts : List Chars) : List Chars :=
  parts.foldl (fun acc p =>
    let comp := sanitize_component p
    if ¬keep ∧ is_unknown_text comp then acc
    else
      let comp := if keep then comp
        else stripWhile isPyWs (collapse2 (trimPunct comp))
      if comp = [] then acc else acc ++ [comp]) []

/-- Stage 5: the core-triplet fallback. -/
def renderCore (keep : Bool) (reps : List (Chars × Chars)) : List Chars :=
  [S "%A", S "%L", S "%S"].foldl (fun acc key =>
    let v := sanitize_component ((lookupAssoc reps key).getD [])
    let v := if ¬keep ∧ is_unknown_text v then [] else v
    let v := if keep then v else stripWhile isPyWs (trimPunct v)
    if v = [] then acc else acc ++ [v]) []

/-- `build_dest_rel_base` is the composition of its five stages. -/
theorem build_dest_rel_base_stages (reps : List (Chars × Chars))
    (ext pattern : Chars) (keep : Bool) :
    build_dest_rel_base reps ext pattern keep =
      joinParts
        (if renderSafe keep (renderParts (renderSub (blankReps keep reps) pattern)) = []
         then (if renderCore keep (blankReps keep reps) = [] then [S "Unknown"]
           else renderCore keep (blankReps keep reps))
         else renderSafe keep (renderParts (renderSub (blankReps keep reps) pattern)))
      ++ ext := rfl

/-- Rendering `%A/%L/%S` with a blanked (unknown) album under the
drop-unknowns policy: placeholder substitution yields `A//G`, the empty
middle component is filtered out, and the surviving components are
re-sanitized and punctuation-trimmed. -/
theorem build_dest_drop_unknown_album (A G ext : Chars)
    (hSA : Sanitized A) (hSG : Sanitized G)
    (hA : ('%' : Char) ∉ A) (hG : ('%' : Char) ∉ G)
    (hAu : is_unknown_text A = false) (hGu : is_unknown_text G = false)
    (hA2 : stripWhile isPyWs (collapse2 (trimPunct A)) ≠ [])
    (hG2 : stripWhile isPyWs (collapse2 (trimPunct G)) ≠ []) :
    build_dest_rel_base
      [(S "%A", A), (S "%L", S "Unknown Album"), (S "%S", G),
       (S "%Y", S "Unknown"), (S "%G", S "Unknown"), (S "%B", S "Unknown"),
       (S "%I", S "Unknown"), (S "%E", S "Clean"), (S "%e", S "false"),
       (S "%a", S "Unknown"), (S "%T", S "Unknown"), (S "%U", S "Unknown")]
      ext (S "%A/%L/%S") false =
    joinParts [stripWhile isPyWs (collapse2 (trimPunct A)),
      stripWhile isPyWs (collapse2 (trimPunct G))] ++ ext := by
  have hAslash : ('/' : Char) ∉ A := fun h => (hSA.1 '/' h).1 rfl
  have hGslash : ('/' : Char) ∉ G := fun h => (hSG.1 '/' h).1 rfl
  have hAne : ¬(A = [] ∨ A = S "." ∨ A = S "..") := sanitized_not_dots hSA
  have hGne : ¬(G = [] ∨ G = S "." ∨ G = S "..") := sanitized_not_dots hSG
  have hsanA : sanitize_component A = A := sanitize_of_sanitized hSA
  have hsanG : sanitize_component G = G := sanitize_of_sanitized hSG
  have e1 : replaceList (S "%A/%L/%S") (S "%A") A = A ++ S "/%L/%S" := rfl
  have e2 : replaceList (A ++ S "/%L/%S") (S "%L") [] = A ++ S "//%S" := by
    have h1 : A ++ S "/%L/%S" = (A ++ S "/") ++ S "%L/%S" := by
      rw [show S "/%L/%S" = S "/" ++ S "%L/%S" from by decide]
      rw [List.append_assoc]
    rw [h1, replaceList_append_skip (S "%L") [] (A ++ S "/") (S "%L/%S")
      (by decide) (head_not_mem rfl (pct_not_mem_append hA (by decide)))]
    rw [show replaceLoop (S "%L") [] (S "%L/%S").length (S "%L/%S") = S "/%S"
      from by decide]
    rw [List.append_assoc]
    rw [show S "/" ++ S "/%S" = S "//%S" from by decide]
  have e3 : replaceList (A ++ S "//%S") (S "%S") G = A ++ ('/' :: '/' :: G) := by
    have h1 : A ++ S "//%S" = (A ++ S "//") ++ S "%S" := by
      rw [show S "//%S" = S "//" ++ S "%S" from by decide]
      rw [List.append_assoc]
    rw [h1, replaceList_append_skip (S "%S") G (A ++ S "//") (S "%S")
      (by decide) (head_not_mem rfl (pct_not_mem_append hA (by decide)))]
    rw [show replaceLoop (S "%S") G (S "%S").length (S "%S") = G ++ [] from rfl]
    rw [List.append_nil, List.append_assoc]
    rw [show S "//" ++ G = '/' :: '/' :: G from rfl]
  have hsubd : ('%' : Char) ∉ A ++ ('/' :: '/' :: G) := by
    refine pct_not_mem_append hA ?_
    intro h
    rcases List.mem_cons.mp h with h | h
    · exact absurd h (by decide)
    rcases List.mem_cons.mp h with h | h
    · exact absurd h (by decide)
    · exact hG h
  have hsplitG : splitSep '/' G = [G] := splitSep_no_sep '/' G hGslash
  have hsplit2 : splitSep '/' ('/' :: '/' :: G) = [] :: [] :: [G] := by
    simp [splitSep, hsplitG]
  have hu1 : is_unknown_text (S "Unknown Album") = true := rfl
  have hu2 : is_unknown_text (S "Unknown") = true := rfl
  have hu3 : is_unknown_text (S "Clean") = false := rfl
  have hu4 : is_unknown_text (S "false") = false := rfl
  have hblank : blankReps false
      [(S "%A", A), (S "%L", S "Unknown Album"), (S "%S", G),
       (S "%Y", S "Unknown"), (S "%G", S "Unknown"), (S "%B", S "Unknown"),
       (S "%I", S "Unknown"), (S "%E", S "Clean"), (S "%e", S "false"),
       (S "%a", S "Unknown"), (S "%T", S "Unknown"), (S "%U", S "Unknown")] =
      [(S "%A", A), (S "%L", []), (S "%S", G),
       (S "%Y", []), (S "%G", []), (S "%B", []),
       (S "%I", []), (S "%E", S "Clean"), (S "%e", S "false"),
       (S "%a", []), (S "%T", []), (S "%U", [])] := by
    simp [blankReps, hAu, hGu, hu1, hu2, hu3, hu4]
  have hsub : renderSub
      [(S "%A", A), (S "%L", []), (S "%S", G),
       (S "%Y", []), (S "%G", []), (S "%B", []),
       (S "%I", []), (S "%E", S "Clean"), (S "%e", S "false"),
       (S "%a", []), (S "%T", []), (S "%U", [])] (S "%A/%L/%S") =
      A ++ ('/' :: '/' :: G) := by
    simp only [renderSub, List.foldl_cons, List.foldl_nil]
    rw [e1, e2, e3]
    rw [replaceList_skip_all (S "%Y") [] (A ++ ('/' :: '/' :: G))
      (by decide) (head_not_mem rfl hsubd)]
    rw [replaceList_skip_all (S "%G") [] (A ++ ('/' :: '/' :: G))
      (by decide) (head_not_mem rfl hsubd)]
    rw [replaceList_skip_all (S "%B") [] (A ++ ('/' :: '/' :: G))
      (by decide) (head_not_mem rfl hsubd)]
    rw [replaceList_skip_all (S "%I") [] (A ++ ('/' :: '/' :: G))
      (by decide) (head_not_mem rfl hsubd)]
    rw [replaceList_skip_all (S "%E") (S "Clean") (A ++ ('/' :: '/' :: G))
      (by decide) (head_not_mem rfl hsubd)]
    rw [replaceList_skip_all (S "%e") (S "false") (A ++ ('/' :: '/' :: G))
      (by decide) (head_not_mem rfl hsubd)]
    rw [replaceList_skip_all (S "%a") [] (A ++ ('/' :: '/' :: G))
      (by decide) (head_not_mem rfl hsubd)]
    rw [replaceList_skip_all (S "%T") [] (A ++ ('/' :: '/' :: G))
      (by decide) (head_not_mem rfl hsubd)]
    rw [replaceList_skip_all (S "%U") [] (A ++ ('/' :: '/' :: G))
      (by decide) (head_not_mem rfl hsubd)]
  have hAnil : A ≠ [] := fun h => hAne (Or.inl h)
  have hAdot : A ≠ S "." := fun h => hAne (Or.inr (Or.inl h))
  have hAddot : A ≠ S ".." := fun h => hAne (Or.inr (Or.inr h))
  have hGnil : G ≠ [] := fun h => hGne (Or.inl h)
  have hGdot : G ≠ S "." := fun h => hGne (Or.inr (Or.inl h))
  have hGddot : G ≠ S ".." := fun h => hGne (Or.inr (Or.inr h))
  have hparts : renderParts (A ++ ('/' :: '/' :: G)) = [A, G] := by
    unfold renderParts
    rw [splitSep_append '/' A hAslash hsplit2]
    simp [hAnil, hAdot, hAddot, hGnil, hGdot, hGddot]
  have hsafe : renderSafe false [A, G] =
      [stripWhile isPyWs (collapse2 (trimPunct A)),
       stripWhile isPyWs (collapse2 (trimPunct G))] := by
    simp only [renderSafe, List.foldl_cons, List.foldl_nil]
    simp [hsanA, hsanG, hAu, hGu, hA2, hG2]
  rw [build_dest_rel_base_stages, hblank, hsub, hparts, hsafe]
  rw [if_neg (by simp)]

/-- `str.split` never returns the empty list. -/
theorem splitSep_ne_nil (sep : Char) : ∀ s, splitSep sep s ≠ []
  | [] => by simp [splitSep]
  | c :: rest => by
    simp only [splitSep]
    cases h : splitSep sep rest with
    | nil => simp
    | cons hh tt =>
      by_cases hc : c = sep <;> simp [hc]

/-- `str.split` on a leading separator yields a leading empty field. -/
theorem splitSep_cons_self (sep : Char) (rest : Chars) :
    splitSep sep (sep :: rest) = [] :: splitSep sep rest := by
  cases h : splitSep sep rest with
  | nil => exact absurd h (splitSep_ne_nil sep rest)
  | cons hh tt => simp [splitSep, h]

/-- Rendering `%A/%L/%S` with album `"Unknown Album"` under the
keep-unknowns policy: no blanking, no dropping, no trimming — the middle
component survives as the literal `Unknown Album`. -/
theorem build_dest_keep_unknown_album (A G ext : Chars)
    (hSA : Sanitized A) (hSG : Sanitized G)
    (hA : ('%' : Char) ∉ A) (hG : ('%' : Char) ∉ G) :
    build_dest_rel_base
      [(S "%A", A), (S "%L", S "Unknown Album"), (S "%S", G),
       (S "%Y", S "Unknown"), (S "%G", S "Unknown"), (S "%B", S "Unknown"),
       (S "%I", S "Unknown"), (S "%E", S "Clean"), (S "%e", S "false"),
       (S "%a", S "Unknown"), (S "%T", S "Unknown"), (S "%U", S "Unknown")]
      ext (S "%A/%L/%S") true =
    joinParts [A, S "Unknown Album", G] ++ ext := by
  have hAslash : ('/' : Char) ∉ A := fun h => (hSA.1 '/' h).1 rfl
  have hGslash : ('/' : Char) ∉ G := fun h => (hSG.1 '/' h).1 rfl
  have hAne : ¬(A = [] ∨ A = S "." ∨ A = S "..") := sanitized_not_dots hSA
  have hGne : ¬(G = [] ∨ G = S "." ∨ G = S "..") := sanitized_not_dots hSG
  have hAnil : A ≠ [] := fun h => hAne (Or.inl h)
  have hAdot : A ≠ S "." := fun h => hAne (Or.inr (Or.inl h))
  have hAddot : A ≠ S ".." := fun h => hAne (Or.inr (Or.inr h))
  have hGnil : G ≠ [] := fun h => hGne (Or.inl h)
  have hGdot : G ≠ S "." := fun h => hGne (Or.inr (Or.inl h))
  have hGddot : G ≠ S ".." := fun h => hGne (Or.inr (Or.inr h))
  have hsanA : sanitize_component A = A := sanitize_of_sanitized hSA
  have hsanG : sanitize_component G = G := sanitize_of_sanitized hSG
  have e1 : replaceList (S "%A/%L/%S") (S "%A") A = A ++ S "/%L/%S" := rfl
  have e2 : replaceList (A ++ S "/%L/%S") (S "%L") (S "Unknown Album") =
      A ++ S "/Unknown Album/%S" := by
    have h1 : A ++ S "/%L/%S" = (A ++ S "/") ++ S "%L/%S" := by
      rw [show S "/%L/%S" = S "/" ++ S "%L/%S" from by decide]
      rw [List.append_assoc]
    rw [h1, replaceList_append_skip (S "%L") (S "Unknown Album") (A ++ S "/")
      (S "%L/%S") (by decide)
      (head_not_mem rfl (pct_not_mem_append hA (by decide)))]
    rw [show replaceLoop (S "%L") (S "Unknown Album") (S "%L/%S").length
      (S "%L/%S") = S "Unknown Album/%S" from by decide]
    rw [List.append_assoc]
    rw [show S "/" ++ S "Unknown Album/%S" = S "/Unknown Album/%S" from by decide]
  have e3 : replaceList (A ++ S "/Unknown Album/%S") (S "%S") G =
      A ++ (S "/Unknown Album/" ++ G) := by
    have h1 : A ++ S "/Unknown Album/%S" =
        (A ++ S "/Unknown Album/") ++ S "%S" := by
      rw [show S "/Unknown Album/%S" = S "/Unknown Album/" ++ S "%S" from by decide]
      rw [List.append_assoc]
    rw [h1, replaceList_append_skip (S "%S") G (A ++ S "/Unknown Album/")
      (S "%S") (by decide)
      (head_not_mem rfl (pct_not_mem_append hA (by decide)))]
    rw [show replaceLoop (S "%S") G (S "%S").length (S "%S") = G ++ [] from rfl]
    rw [List.append_nil, List.append_assoc]
  have hsubk : ('%' : Char) ∉ A ++ (S "/Unknown Album/" ++ G) :=
    pct_not_mem_append hA (pct_not_mem_append (by decide) hG)
  have hsplitG : splitSep '/' G = [G] := splitSep_no_sep '/' G hGslash
  have h1k : splitSep '/' ('/' :: G) = [] :: [G] := by
    simp [splitSep, hsplitG]
  have h2k : splitSep '/' (S "Unknown Album/" ++ G) =
      (S "Unknown Album" ++ []) :: [G] := by
    show splitSep '/' (S "Unknown Album" ++ ('/' :: G)) = _
    exact splitSep_append '/' (S "Unknown Album") (by decide) h1k
  have h3k : splitSep '/' (S "/Unknown Album/" ++ G) =
      [] :: (S "Unknown Album" ++ []) :: [G] := by
    show splitSep '/' ('/' :: (S "Unknown Album/" ++ G)) = _
    rw [splitSep_cons_self, h2k]
  have hsub : renderSub
      [(S "%A", A), (S "%L", S "Unknown Album"), (S "%S", G),
       (S "%Y", S "Unknown"), (S "%G", S "Unknown"), (S "%B", S "Unknown"),
       (S "%I", S "Unknown"), (S "%E", S "Clean"), (S "%e", S "false"),
       (S "%a", S "Unknown"), (S "%T", S "Unknown"), (S "%U", S "Unknown")]
      (S "%A/%L/%S") = A ++ (S "/Unknown Album/" ++ G) := by
    simp only [renderSub, List.foldl_cons, List.foldl_nil]
    rw [e1, e2, e3]
    rw [replaceList_skip_all (S "%Y") (S "Unknown")
      (A ++ (S "/Unknown Album/" ++ G)) (by decide) (head_not_mem rfl hsubk)]
    rw [replaceList_skip_all (S "%G") (S "Unknown")
      (A ++ (S "/Unknown Album/" ++ G)) (by decide) (head_not_mem rfl hsubk)]
    rw [replaceList_skip_all (S "%B") (S "Unknown")
      (A ++ (S "/Unknown Album/" ++ G)) (by decide) (head_not_mem rfl hsubk)]
    rw [replaceList_skip_all (S "%I") (S "Unknown")
      (A ++ (S "/Unknown Album/" ++ G)) (by decide) (head_not_mem rfl hsubk)]
    rw [replaceList_skip_all (S "%E") (S "Clean")
      (A ++ (S "/Unknown Album/" ++ G)) (by decide) (head_not_mem rfl hsubk)]
    rw [replaceList_skip_all (S "%e") (S "false")
      (A ++ (S "/Unknown Album/" ++ G)) (by decide) (head_not_mem rfl hsubk)]
    rw [replaceList_skip_all (S "%a") (S "Unknown")
      (A ++ (S "/Unknown Album/" ++ G)) (by decide) (head_not_mem rfl hsubk)]
    rw [replaceList_skip_all (S "%T") (S "Unknown")
      (A ++ (S "/Unknown Album/" ++ G)) (by decide) (head_not_mem rfl hsubk)]
    rw [replaceList_skip_all (S "%U") (S "Unknown")
      (A ++ (S "/Unknown Album/" ++ G)) (by decide) (head_not_mem rfl hsubk)]
  have hparts : renderParts (A ++ (S "/Unknown Album/" ++ G)) =
      [A, S "Unknown Album", G] := by
    unfold renderParts
    rw [splitSep_append '/' A hAslash h3k]
    simp [hAnil, hAdot, hAddot, hGnil, hGdot, hGddot,
      show S "Unknown Album" ≠ [] from by decide,
      show S "Unknown Album" ≠ S "." from by decide,
      show S "Unknown Album" ≠ S ".." from by decide]
  have hsanUA : sanitize_component (S "Unknown Album") = S "Unknown Album" := rfl
  have hsafe : renderSafe true [A, S "Unknown Album", G] =
      [A, S "Unknown Album", G] := by
    simp only [renderSafe, List.foldl_cons, List.foldl_nil]
    simp [hsanA, hsanG, hsanUA, hAnil, hGnil,
      show S "Unknown Album" ≠ [] from by decide]
  rw [build_dest_rel_base_stages, show blankReps true
    [(S "%A", A), (S "%L", S "Unknown Album"), (S "%S", G),
     (S "%Y", S "Unknown"), (S "%G", S "Unknown"), (S "%B", S "Unknown"),
     (S "%I", S "Unknown"), (S "%E", S "Clean"), (S "%e", S "false"),
     (S "%a", S "Unknown"), (S "%T", S "Unknown"), (S "%U", S "Unknown")] =
    [(S "%A", A), (S "%L", S "Unknown Album"), (S "%S", G),
     (S "%Y", S "Unknown"), (S "%G", S "Unknown"), (S "%B", S "Unknown"),
     (S "%I", S "Unknown"), (S "%E", S "Clean"), (S "%e", S "false"),
     (S "%a", S "Unknown"), (S "%T", S "Unknown"), (S "%U", S "Unknown")]
    from by simp [blankReps]]
  rw [hsub, hparts, hsafe]
  rw [if_neg (by simp)]

/-- **C9.** For a record whose album is marked unknown, rendering the
`%A/%L/%S` pattern under the default drop-unknowns policy yields the
two-component path `artist/song` (each component re-sanitized and
punctuation-trimmed), while the keep-unknowns policy yields the
three-component path whose middle component is the literal
`Unknown Album`. -/
theorem unknown_album_elision (cfg : Config) (fs : FS) (src aut sng : Chars)
    (hpat : cfg.pattern = S "%A/%L/%S")
    (hautk : treatedUnknown none (some aut) = false)
    (hsngk : treatedUnknown none (some sng) = false)
    (hA : ('%' : Char) ∉ sanitize_component aut)
    (hG : ('%' : Char) ∉ sanitize_component sng)
    (hAu : is_unknown_text (sanitize_component aut) = false)
    (hGu : is_unknown_text (sanitize_component sng) = false)
    (hA2 : stripWhile isPyWs (collapse2 (trimPunct (sanitize_component aut))) ≠ [])
    (hG2 : stripWhile isPyWs (collapse2 (trimPunct (sanitize_component sng))) ≠ []) :
    (cfg.keep_unknowns = false →
      (processEntry cfg fs src
        { author := some aut, song := some sng,
          album_unknown := some true }).dest_rel_base =
        joinParts [stripWhile isPyWs (collapse2 (trimPunct (sanitize_component aut))),
          stripWhile isPyWs (collapse2 (trimPunct (sanitize_component sng)))] ++
          ((pathSplitExt src).2).map asciiLower) ∧
    (cfg.keep_unknowns = true →
      (processEntry cfg fs src
        { author := some aut, song := some sng,
          album_unknown := some true }).dest_rel_base =
        joinParts [sanitize_component aut, S "Unknown Album",
          sanitize_component sng] ++ ((pathSplitExt src).2).map asciiLower) := by
  have hal : treatedUnknown (some true) (none : Option Chars) = true := rfl
  have hsanUA : sanitize_component (S "Unknown Album") = S "Unknown Album" := rfl
  have hsanUnk : sanitize_component (S "Unknown") = S "Unknown" := rfl
  have hpe : (processEntry cfg fs src
      { author := some aut, song := some sng,
        album_unknown := some true }).dest_rel_base =
      build_dest_rel_base
        [(S "%A", sanitize_component aut), (S "%L", S "Unknown Album"),
         (S "%S", sanitize_component sng), (S "%Y", S "Unknown"),
         (S "%G", S "Unknown"), (S "%B", S "Unknown"), (S "%I", S "Unknown"),
         (S "%E", S "Clean"), (S "%e", S "false"), (S "%a", S "Unknown"),
         (S "%T", S "Unknown"), (S "%U", S "Unknown")]
        (((pathSplitExt src).2).map asciiLower) cfg.pattern cfg.keep_unknowns := by
    simp [processEntry, hautk, hsngk, hal, orUnknown, hsanUA, hsanUnk]
  constructor
  · intro hk
    rw [hpe, hpat, hk]
    exact build_dest_drop_unknown_album (sanitize_component aut)
      (sanitize_component sng) (((pathSplitExt src).2).map asciiLower)
      (sanitize_component_sanitized aut) (sanitize_component_sanitized sng)
      hA hG hAu hGu hA2 hG2
  · intro hk
    rw [hpe, hpat, hk]
    exact build_dest_keep_unknown_album (sanitize_component aut)
      (sanitize_component sng) (((pathSplitExt src).2).map asciiLower)
      (sanitize_component_sanitized aut) (sanitize_component_sanitized sng)
      hA hG

/-- The example configuration with unknown components kept. -/
def exCfgKeep : Config := { exCfg with keep_unknowns := true }

/-- C9 witness: the elision property evaluated for the record
`{author := "Art", song := "Song", album_unknown := true}` under both the
drop-unknowns configuration and the keep-unknowns configuration. -/
theorem unknown_album_elision_witness :
    ((exCfg.keep_unknowns = false →
      (processEntry exCfg [] (S "/m/a.mp3")
        { author := some (S "Art"), song := some (S "Song"),
          album_unknown := some true }).dest_rel_base =
        joinParts [stripWhile isPyWs (collapse2 (trimPunct (sanitize_component (S "Art")))),
          stripWhile isPyWs (collapse2 (trimPunct (sanitize_component (S "Song"))))] ++
          ((pathSplitExt (S "/m/a.mp3")).2).map asciiLower) ∧
     (exCfg.keep_unknowns = true →
      (processEntry exCfg [] (S "/m/a.mp3")
        { author := some (S "Art"), song := some (S "Song"),
          album_unknown := some true }).dest_rel_base =
        joinParts [sanitize_component (S "Art"), S "Unknown Album",
          sanitize_component (S "Song")] ++
          ((pathSplitExt (S "/m/a.mp3")).2).map asciiLower)) ∧
    ((exCfgKeep.keep_unknowns = false →
      (processEntry exCfgKeep [] (S "/m/a.mp3")
        { author := some (S "Art"), song := some (S "Song"),
          album_unknown := some true }).dest_rel_base =
        joinParts [stripWhile isPyWs (collapse2 (trimPunct (sanitize_component (S "Art")))),
          stripWhile isPyWs (collapse2 (trimPunct (sanitize_component (S "Song"))))] ++
          ((pathSplitExt (S "/m/a.mp3")).2).map asciiLower) ∧
     (exCfgKeep.keep_unknowns = true →
      (processEntry exCfgKeep [] (S "/m/a.mp3")
        { author := some (S "Art"), song := some (S "Song"),
          album_unknown := some true }).dest_rel_base =
        joinParts [sanitize_component (S "Art"), S "Unknown Album",
          sanitize_component (S "Song")] ++
          ((pathSplitExt (S "/m/a.mp3")).2).map asciiLower)) :=
  ⟨unknown_album_elision exCfg [] (S "/m/a.mp3") (S "Art") (S "Song") rfl
      (by decide) (by decide) (by decide) (by decide) (by decide) (by decide)
      (by decide) (by decide),
   unknown_album_elision exCfgKeep [] (S "/m/a.mp3") (S "Art") (S "Song") rfl
      (by decide) (by decide) (by decide) (by decide) (by decide) (by decide)
      (by decide) (by decide)⟩
